import Mathlib

/-!
Verification of the BESS Size Calculator repository against its
natural-language specification.

The repository schedules a battery energy storage system (BESS) against a
24-hour consumption profile and 24 hourly spot prices.  The relevant source
functions are embedded below over the rationals:

- best_bess.py : optimize_bess (three passes: peak shaving, arbitrage,
  enforcement), calculate_savings, compare_bess_sizes;
- bess_ps.py : optimize_bess (arbitrage only), compute_peak_shaving_savings,
  and the multi-day SOC-threading loop of main;
- the stable sort selection of the 3 lowest / 3 highest price hours shared by
  both optimizers (Python sorted with and without reverse, both stable).

Lists model Python lists; List.set and List.getD model item assignment and
item access (all accesses in the source are in range, which hypotheses of the
theorems record through length facts).
-/

-- ## Total list indexing

/-- Total indexing into a list of rationals, defaulting to 0; models the
in-range item accesses of the Python lists. -/
def getQ (l : List ℚ) (i : Nat) : ℚ := l.getD i 0

-- ## Stable insertion sort over hour indices

/-- Insert x in front of the first element y with le x y true.  With le the
non-strict comparison on keys this is the stable insertion step. -/
def insertAsc (le : Nat → Nat → Bool) (x : Nat) : List Nat → List Nat
  | [] => [x]
  | y :: ys => if le x y then x :: y :: ys else y :: insertAsc le x ys

/-- Stable insertion sort, the model of Python sorted on a list of indices. -/
def isort (le : Nat → Nat → Bool) : List Nat → List Nat
  | [] => []
  | x :: xs => insertAsc le x (isort le xs)

/-- Ascending comparison by price, the key function of sorted(range(24),
key=lambda x: spot_prices[x]). -/
def ascBy (p : List ℚ) (i j : Nat) : Bool := decide (p.getD i 0 ≤ p.getD j 0)

/-- Descending comparison by price, the key function of the reverse=True
sort.  Python sorted with reverse=True is stable as well. -/
def descBy (p : List ℚ) (i j : Nat) : Bool := decide (p.getD j 0 ≤ p.getD i 0)

/-- Indices of the 3 lowest-price hours, in selection order. -/
def lowestIdx (p : List ℚ) : List Nat := (isort (ascBy p) (List.range 24)).take 3

/-- Indices of the 3 highest-price hours, in selection order. -/
def highestIdx (p : List ℚ) : List Nat := (isort (descBy p) (List.range 24)).take 3

namespace BestBess

/-- State threaded through the passes of optimize_bess in best_bess.py:
the charge schedule, the discharge schedule, the running net grid load and
the battery state of charge in kWh. -/
structure BState where
  charge : List ℚ
  discharge : List ℚ
  net : List ℚ
  soc : ℚ

/-- One hour of the first pass of optimize_bess in best_bess.py (peak
shaving): when net load exceeds the threshold, discharge the minimum of the
excess, the power limit and soc times efficiency, then clamp the net load to
the threshold. -/
def ps1 (thr pow eff : ℚ) (st : BState) (h : Nat) : BState :=
  let n := getQ st.net h
  if thr < n then
    let d := min (n - thr) (min pow (st.soc * eff))
    { st with discharge := st.discharge.set h d,
              soc := st.soc - d / eff,
              net := st.net.set h (min (n - d) thr) }
  else st

/-- One hour of the arbitrage charging loop of optimize_bess in best_bess.py:
charge at the power limit bounded by headroom to the SOC ceiling, only if
the threshold is not exceeded. -/
def arbC (thr pow cap eff mx : ℚ) (st : BState) (h : Nat) : BState :=
  if st.soc < mx * cap then
    let c := min pow ((mx * cap - st.soc) / eff)
    let n := getQ st.net h
    if n + c ≤ thr then
      { st with charge := st.charge.set h c,
                soc := st.soc + c * eff,
                net := st.net.set h (n + c) }
    else st
  else st

/-- One hour of the arbitrage discharging loop of optimize_bess in
best_bess.py: discharge at the power limit bounded by soc times efficiency,
only if the net load stays non-negative.  The discharge schedule is
incremented, not assigned. -/
def arbD (pow cap eff mn : ℚ) (st : BState) (h : Nat) : BState :=
  if mn * cap < st.soc then
    let d := min pow (st.soc * eff)
    let n := getQ st.net h
    if 0 ≤ n - d then
      { st with discharge := st.discharge.set h (getQ st.discharge h + d),
                soc := st.soc - d / eff,
                net := st.net.set h (n - d) }
    else st
  else st

/-- One hour of the final enforcement pass of optimize_bess in best_bess.py:
force extra discharge above the threshold, then force extra charge below
zero, clamping the net load each time. -/
def ps3 (thr pow cap eff mx : ℚ) (st : BState) (h : Nat) : BState :=
  let st1 :=
    let n := getQ st.net h
    if thr < n then
      let d := min (n - thr) (min pow (st.soc * eff))
      { st with discharge := st.discharge.set h (getQ st.discharge h + d),
                soc := st.soc - d / eff,
                net := st.net.set h (min (n - d) thr) }
    else st
  let n1 := getQ st1.net h
  if n1 < 0 then
    let c := min (-n1) (min pow ((mx * cap - st1.soc) / eff))
    { st1 with charge := st1.charge.set h (getQ st1.charge h + c),
               soc := st1.soc + c * eff,
               net := st1.net.set h (max (n1 + c) 0) }
  else st1

/-- The all-zero 24-hour schedule. -/
def zeros24 : List ℚ := List.replicate 24 0

/-- Initial state of optimize_bess in best_bess.py: SOC starts at the
ceiling, the net grid load starts as a copy of the consumption. -/
def initState (c : List ℚ) (cap mx : ℚ) : BState :=
  ⟨zeros24, zeros24, c, mx * cap⟩

/-- The four ordered loops of optimize_bess in best_bess.py, run from the
initial state. -/
def bbRun (c p : List ℚ) (thr pow cap eff mn mx : ℚ) : BState :=
  let st1 := (List.range 24).foldl (ps1 thr pow eff) (initState c cap mx)
  let st2 := (lowestIdx p).foldl (arbC thr pow cap eff mx) st1
  let st3 := (highestIdx p).foldl (arbD pow cap eff mn) st2
  (List.range 24).foldl (ps3 thr pow cap eff mx) st3

/-- optimize_bess from best_bess.py.  Arguments follow the source order:
consumption, spot prices, grid threshold, battery power, battery capacity,
battery efficiency, minimum SOC, maximum SOC.  Returns the charge schedule,
the discharge schedule and the net grid load. -/
def optimize_bess (c p : List ℚ) (thr pow cap eff mn mx : ℚ) :
    List ℚ × List ℚ × List ℚ :=
  if cap = 0 then (zeros24, zeros24, c)
  else
    let st := bbRun c p thr pow cap eff mn mx
    (st.charge, st.discharge, st.net)

/-- The SOC values observed after each step of a loop. -/
def socsOf (f : BState → Nat → BState) : BState → List Nat → List ℚ
  | _, [] => []
  | st, a :: l =>
    let st2 := f st a
    st2.soc :: socsOf f st2 l

/-- Every SOC value observed at an hour boundary of any pass of
optimize_bess in best_bess.py, starting value included. -/
def socTrace (c p : List ℚ) (thr pow cap eff mn mx : ℚ) : List ℚ :=
  let st0 := initState c cap mx
  let st1 := (List.range 24).foldl (ps1 thr pow eff) st0
  let st2 := (lowestIdx p).foldl (arbC thr pow cap eff mx) st1
  let st3 := (highestIdx p).foldl (arbD pow cap eff mn) st2
  st0.soc :: (socsOf (ps1 thr pow eff) st0 (List.range 24) ++
    socsOf (arbC thr pow cap eff mx) st1 (lowestIdx p) ++
    socsOf (arbD pow cap eff mn) st2 (highestIdx p) ++
    socsOf (ps3 thr pow cap eff mx) st3 (List.range 24))

/-- calculate_savings from best_bess.py: initial cost, optimized cost and
savings, summed over the 24 hours. -/
def calculate_savings (c p net : List ℚ) : ℚ × ℚ × ℚ :=
  let ic := ((List.range 24).map (fun h => getQ c h * getQ p h)).sum
  let oc := ((List.range 24).map (fun h => getQ net h * getQ p h)).sum
  (ic, oc, ic - oc)

/-- The candidate battery sizes of compare_bess_sizes in best_bess.py. -/
def bess_sizes : List Nat := [0, 500, 1000, 1500, 2000]

/-- compare_bess_sizes from best_bess.py.  Every iteration calls
optimize_bess with the battery_capacity argument, not with the candidate
size.  The best size is the first one attaining the maximal savings, as in
Python max over the keys of the results dict. -/
def compare_bess_sizes (c p : List ℚ) (thr pow cap eff mn mx : ℚ) :
    List (Nat × (ℚ × ℚ × ℚ)) × Nat :=
  let results := bess_sizes.map (fun size =>
    (size, calculate_savings c p (optimize_bess c p thr pow cap eff mn mx).2.2))
  let best :=
    match results with
    | [] => 0
    | r :: rs => (rs.foldl (fun b x => if b.2.2.2 < x.2.2.2 then x else b) r).1
  (results, best)

/-- SOC window actually maintained by the code: between 0 and the ceiling. -/
def socb (cap mx : ℚ) (st : BState) : Prop := 0 ≤ st.soc ∧ st.soc ≤ mx * cap

/-- Invariant of the C2 identity proof: lengths, SOC window, per-hour
accounting identity and net-load window. -/
def inv2 (c : List ℚ) (thr cap mx : ℚ) (st : BState) : Prop :=
  socb cap mx st ∧ st.charge.length = 24 ∧ st.discharge.length = 24 ∧
    st.net.length = 24 ∧
    (∀ j, j < 24 →
      getQ st.net j = getQ c j - getQ st.discharge j + getQ st.charge j) ∧
    (∀ j, j < 24 → 0 ≤ getQ st.net j ∧ getQ st.net j ≤ thr)

end BestBess

namespace BessPs

/-- State threaded through the two arbitrage loops of optimize_bess in
bess_ps.py: charge schedule, discharge schedule, net grid load and the
accumulated arbitrage savings. -/
structure PState where
  charge : List ℚ
  discharge : List ℚ
  net : List ℚ
  sav : ℚ

/-- One hour of the charging loop of optimize_bess in bess_ps.py: charge at
full battery power unconditionally, increasing net load and paying the spot
price. -/
def chStep (pow : ℚ) (p : List ℚ) (st : PState) (h : Nat) : PState :=
  { st with charge := st.charge.set h pow,
            net := st.net.set h (getQ st.net h + pow),
            sav := st.sav - pow * getQ p h }

/-- One hour of the discharging loop of optimize_bess in bess_ps.py:
discharge at full battery power unconditionally, decreasing net load and
earning the spot price. -/
def disStep (pow : ℚ) (p : List ℚ) (st : PState) (h : Nat) : PState :=
  { st with discharge := st.discharge.set h pow,
            net := st.net.set h (getQ st.net h - pow),
            sav := st.sav + pow * getQ p h }

/-- optimize_bess from bess_ps.py.  Arguments follow the source order:
consumption, spot prices, grid threshold, battery power, battery capacity,
battery efficiency, minimum SOC, maximum SOC, initial SOC.  Returns charge
schedule, discharge schedule, net grid load and arbitrage savings. -/
def optimize_bess (c p : List ℚ) (thr pow cap eff mn mx soc0 : ℚ) :
    List ℚ × List ℚ × List ℚ × ℚ :=
  if p.length < 3 then (List.replicate 24 0, List.replicate 24 0, c, 0)
  else
    let st0 : PState := ⟨List.replicate 24 0, List.replicate 24 0, c, 0⟩
    let st1 := (lowestIdx p).foldl (chStep pow p) st0
    let st2 := (highestIdx p).foldl (disStep pow p) st1
    (st2.charge, st2.discharge, st2.net, st2.sav)

/-- Python max over a list; the source only applies it to the non-empty
24-hour consumption profile. -/
def pyMax : List ℚ → ℚ
  | [] => 0
  | x :: xs => xs.foldl max x

/-- compute_peak_shaving_savings from bess_ps.py (identical in
bess_size_app.py): the single worst hourly exceedance over the threshold,
valued at 104 times 6 currency units per kWh. -/
def compute_peak_shaving_savings (c : List ℚ) (thr : ℚ) : ℚ × ℚ :=
  let hhc := pyMax c
  let ps := max 0 (hhc - thr)
  (ps, ps * 104 * 6)

/-- One day of the multi-day loop in main of bess_ps.py.  A day whose price
series is unavailable is skipped by a continue, leaving the carried SOC
untouched; otherwise the optimizer runs and the carried SOC becomes the
clamped end-of-day SOC divided by capacity. -/
def driverStep (c : List ℚ) (thr pow cap eff mn mx : ℚ)
    (soc : ℚ) (day : Option (List ℚ)) : ℚ :=
  match day with
  | none => soc
  | some p =>
    let r := optimize_bess c p thr pow cap eff mn mx soc
    let raw := soc * cap + ((List.range 24).map
      (fun h => getQ r.1 h * eff - getQ r.2.1 h / eff)).sum
    let clamped := max (mn * cap) (min raw (mx * cap))
    clamped / cap

/-- The multi-day SOC threading loop of main in bess_ps.py, folded over the
date range; each entry of days is that day price series, or none when the
fetch failed. -/
def runDriver (c : List ℚ) (thr pow cap eff mn mx : ℚ)
    (days : List (Option (List ℚ))) (soc0 : ℚ) : ℚ :=
  days.foldl (driverStep c thr pow cap eff mn mx) soc0

end BessPs

-- ## Concrete input series used by the counterexamples

/-- Ascending concrete price series used in the C3 counterexample. -/
def pC3 : List ℚ :=
  [0, 1, 2, 3, 4, 5, 6, 7, 8, 9, 10, 11, 12,
   13, 14, 15, 16, 17, 18, 19, 20, 21, 22, 23]

/-- Ascending concrete price series used in the C4 counterexample. -/
def pC4 : List ℚ :=
  [0, 1, 2, 3, 4, 5, 6, 7, 8, 9, 10, 11, 12,
   13, 14, 15, 16, 17, 18, 19, 20, 21, 22, 23]

/-- Consumption series of the C1 counterexample: one 100 kWh peak hour. -/
def cC1 : List ℚ := 100 :: List.replicate 23 0

/-- Consumption series of the C2 counterexample: one 100 kWh peak hour. -/
def cC2 : List ℚ := 100 :: List.replicate 23 0

/-- Price series of the C6 counterexample: expensive hour 0. -/
def pC6 : List ℚ :=
  [100, 1, 1, 1, 1, 1, 1, 1, 1, 1, 1, 1,
   1, 1, 1, 1, 1, 1, 1, 1, 1, 1, 1, 1]

/-- Consumption series of the C6 counterexample: one 20 kWh peak hour. -/
def cC6 : List ℚ := 20 :: List.replicate 23 0

-- ## Helper lemmas about list indexing

theorem getQ_set_self (l : List ℚ) (k : Nat) (v : ℚ) (hk : k < l.length) :
    getQ (l.set k v) k = v := by
  simp [getQ, List.getD, List.getElem?_set_self, hk]

theorem getQ_set_other (l : List ℚ) (k j : Nat) (v : ℚ) (hne : j ≠ k) :
    getQ (l.set k v) j = getQ l j := by
  simp [getQ, List.getD, List.getElem?_set_ne (fun h => hne h.symm)]

theorem getQ_replicate_zero (n k : Nat) : getQ (List.replicate n (0:ℚ)) k = 0 := by
  simp only [getQ]
  induction n generalizing k with
  | zero => simp [List.getD]
  | succ m ih =>
    cases k with
    | zero => simp [List.replicate, List.getD]
    | succ j => simpa [List.replicate, List.getD] using ih j

theorem getD_replicate_zero (n k : Nat) : (List.replicate n (0:ℚ)).getD k 0 = 0 := by
  induction n generalizing k with
  | zero => simp [List.getD]
  | succ m ih =>
    cases k with
    | zero => simp [List.replicate, List.getD]
    | succ j => simpa [List.replicate, List.getD] using ih j

theorem getD_replicate (n k : Nat) (q : ℚ) (hk : k < n) :
    (List.replicate n q).getD k 0 = q := by
  induction n generalizing k with
  | zero => omega
  | succ m ih =>
    cases k with
    | zero => simp [List.replicate, List.getD]
    | succ j =>
      have hj : j < m := by omega
      simpa [List.replicate, List.getD] using ih j hj

-- ## Facts about the stable insertion sort

theorem insertAsc_perm (le : Nat → Nat → Bool) (x : Nat) (l : List Nat) :
    (insertAsc le x l).Perm (x :: l) := by
  induction l with
  | nil => simp [insertAsc]
  | cons y ys ih =>
    by_cases h : le x y
    · simp [insertAsc, h]
    · simp only [insertAsc, h, Bool.false_eq_true, if_false]
      exact (List.Perm.cons y ih).trans (List.Perm.swap x y ys)

theorem isort_perm (le : Nat → Nat → Bool) (l : List Nat) : (isort le l).Perm l := by
  induction l with
  | nil => simp [isort]
  | cons x xs ih =>
    exact (insertAsc_perm le x (isort le xs)).trans (List.Perm.cons x ih)

theorem isort_nodup (le : Nat → Nat → Bool) (l : List Nat) (hl : l.Nodup) :
    (isort le l).Nodup := ((isort_perm le l).nodup_iff).mpr hl

theorem isort_mem (le : Nat → Nat → Bool) (l : List Nat) (x : Nat)
    (hx : x ∈ isort le l) : x ∈ l := ((isort_perm le l).mem_iff).mp hx

theorem lowestIdx_nodup (p : List ℚ) : (lowestIdx p).Nodup :=
  ((isort_nodup (ascBy p) (List.range 24) (List.nodup_range 24)).sublist
    (List.take_sublist 3 _))

theorem highestIdx_nodup (p : List ℚ) : (highestIdx p).Nodup :=
  ((isort_nodup (descBy p) (List.range 24) (List.nodup_range 24)).sublist
    (List.take_sublist 3 _))

theorem lowestIdx_lt (p : List ℚ) (x : Nat) (hx : x ∈ lowestIdx p) : x < 24 := by
  have hx2 : x ∈ isort (ascBy p) (List.range 24) :=
    (List.take_sublist 3 _).mem hx
  simpa using isort_mem _ _ _ hx2

theorem highestIdx_lt (p : List ℚ) (x : Nat) (hx : x ∈ highestIdx p) : x < 24 := by
  have hx2 : x ∈ isort (descBy p) (List.range 24) :=
    (List.take_sublist 3 _).mem hx
  simpa using isort_mem _ _ _ hx2

/-- An insertion sort whose comparison is true on every pair of elements of
the list leaves the list unchanged (ties keep the original order). -/
theorem isort_of_all_true (le : Nat → Nat → Bool) :
    ∀ l : List Nat, (∀ i ∈ l, ∀ j ∈ l, le i j = true) → isort le l = l := by
  intro l
  induction l with
  | nil => intro _; simp [isort]
  | cons x xs ih =>
    intro hall
    have hxs : isort le xs = xs :=
      ih (fun i hi j hj => hall i (by simp [hi]) j (by simp [hj]))
    rw [isort, hxs]
    cases xs with
    | nil => simp [insertAsc]
    | cons y ys =>
      have hxy : le x y = true := hall x (by simp) y (by simp)
      simp [insertAsc, hxy]

-- ## Generic fold and list facts used by several claims

theorem foldl_preserve {α : Type} {P : α → Prop} (f : α → Nat → α)
    (hf : ∀ st a, P st → P (f st a)) :
    ∀ (l : List Nat) (st : α), P st → P (l.foldl f st) := by
  intro l
  induction l with
  | nil => intro st h; simpa using h
  | cons a as ih =>
    intro st h
    simpa [List.foldl_cons] using ih (f st a) (hf st a h)

theorem mem_of_getQ (l : List ℚ) (h : Nat) (hh : h < l.length) : getQ l h ∈ l := by
  rw [getQ, List.getD_eq_getElem l 0 hh]
  exact List.getElem_mem hh

theorem foldl_max_le (m : ℚ) :
    ∀ (l : List ℚ) (a : ℚ), a ≤ m → (∀ x ∈ l, x ≤ m) → l.foldl max a ≤ m := by
  intro l
  induction l with
  | nil => intro a ha _; simpa using ha
  | cons x xs ih =>
    intro a ha hl
    simp only [List.foldl_cons]
    exact ih (max a x) (max_le ha (hl x (by simp))) (fun y hy => hl y (by simp [hy]))

theorem le_foldl_max :
    ∀ (l : List ℚ) (a : ℚ), a ≤ l.foldl max a ∧ ∀ x ∈ l, x ≤ l.foldl max a := by
  intro l
  induction l with
  | nil => intro a; simp
  | cons x xs ih =>
    intro a
    simp only [List.foldl_cons]
    refine ⟨le_trans (le_max_left a x) (ih (max a x)).1, ?_⟩
    intro y hy
    rcases List.mem_cons.mp hy with rfl | hy2
    · exact le_trans (le_max_right a y) (ih (max a y)).1
    · exact (ih (max a x)).2 y hy2

theorem pyMax_eq (c : List ℚ) (m : ℚ) (hm : m ∈ c) (hub : ∀ x ∈ c, x ≤ m) :
    BessPs.pyMax c = m := by
  cases c with
  | nil => simp at hm
  | cons x xs =>
    refine le_antisymm ?_ ?_
    · exact foldl_max_le m xs x (hub x (by simp)) (fun y hy => hub y (by simp [hy]))
    · rcases List.mem_cons.mp hm with h1 | h2
      · exact h1 ▸ (le_foldl_max xs x).1
      · exact (le_foldl_max xs x).2 m h2

-- ## C10

/-- C10: optimize_bess in bess_ps.py is noninterferent with respect to the
battery configuration and state: with the same consumption, spot prices and
battery power, its output is identical whatever the grid threshold, battery
capacity, battery efficiency, min SOC, max SOC and initial SOC are. -/
theorem c10_bess_ps_noninterference (c p : List ℚ) (pow : ℚ)
    (t1 cap1 eff1 mn1 mx1 s1 t2 cap2 eff2 mn2 mx2 s2 : ℚ) :
    BessPs.optimize_bess c p t1 pow cap1 eff1 mn1 mx1 s1 =
      BessPs.optimize_bess c p t2 pow cap2 eff2 mn2 mx2 s2 := rfl

-- ## C7

/-- C7: in the multi-day loop of main in bess_ps.py, a day whose price series
is unavailable is skipped and the carried SOC is left unchanged: the run over
a date range with an unavailable day inserted produces the same carried SOC
as the run without that day. -/
theorem c7_skip_day_keeps_soc (c : List ℚ) (thr pow cap eff mn mx soc0 : ℚ)
    (d1 d2 : List (Option (List ℚ))) :
    BessPs.runDriver c thr pow cap eff mn mx (d1 ++ none :: d2) soc0 =
      BessPs.runDriver c thr pow cap eff mn mx (d1 ++ d2) soc0 := by
  unfold BessPs.runDriver
  rw [List.foldl_append, List.foldl_append, List.foldl_cons]
  rfl

-- ## C9

/-- C9: compare_bess_sizes in best_bess.py passes the fixed battery_capacity
argument to every iteration instead of the candidate size, so every candidate
size is mapped to the same cost triple, and the recommended best size is the
first candidate, 0. -/
theorem c9_compare_sizes_constant (c p : List ℚ) (thr pow cap eff mn mx : ℚ) :
    (∀ e ∈ (BestBess.compare_bess_sizes c p thr pow cap eff mn mx).1,
        e.2 = BestBess.calculate_savings c p
          (BestBess.optimize_bess c p thr pow cap eff mn mx).2.2) ∧
      (BestBess.compare_bess_sizes c p thr pow cap eff mn mx).2 = 0 := by
  constructor
  · intro e he
    simp only [BestBess.compare_bess_sizes, BestBess.bess_sizes, List.map,
      List.mem_cons, List.not_mem_nil, or_false] at he
    rcases he with h | h | h | h | h <;> rw [h]
  · simp [BestBess.compare_bess_sizes, BestBess.bess_sizes, lt_irrefl]

-- ## C5

theorem isort_replicate_asc (q : ℚ) :
    isort (ascBy (List.replicate 24 q)) (List.range 24) = List.range 24 := by
  refine isort_of_all_true _ _ ?_
  intro i hi j hj
  simp only [ascBy]
  rw [getD_replicate 24 i q (List.mem_range.mp hi),
    getD_replicate 24 j q (List.mem_range.mp hj)]
  simp

theorem isort_replicate_desc (q : ℚ) :
    isort (descBy (List.replicate 24 q)) (List.range 24) = List.range 24 := by
  refine isort_of_all_true _ _ ?_
  intro i hi j hj
  simp only [descBy]
  rw [getD_replicate 24 i q (List.mem_range.mp hi),
    getD_replicate 24 j q (List.mem_range.mp hj)]
  simp

/-- C5 counterexample: with all 24 prices equal, the 3 highest-price hours
selected by the stable descending sort are hours 0, 1, 2 and not hours
21, 22, 23 as claimed; Python sorted with reverse=True keeps equal keys in
original order. -/
theorem c5_counterexample :
    highestIdx (List.replicate 24 (1:ℚ)) ≠ [21, 22, 23] := by
  rw [highestIdx, isort_replicate_desc 1]
  decide

/-- C5 amended: the arbitrage pass selects the 3 lowest-price and 3
highest-price hours with ties broken by earliest hour index in both
directions, because the descending sort is stable as well; when all 24
prices are equal, the lowest-price hours selected are 0, 1, 2 and the
highest-price hours selected are also 0, 1, 2. -/
theorem c5_amended_stable_ties (q : ℚ) :
    lowestIdx (List.replicate 24 q) = [0, 1, 2] ∧
      highestIdx (List.replicate 24 q) = [0, 1, 2] := by
  rw [lowestIdx, highestIdx, isort_replicate_asc q, isort_replicate_desc q]
  exact ⟨by decide, by decide⟩

-- ## C8

/-- C8: the peak-shaving savings estimator returns the positive part of the
maximal consumption minus the threshold, and values it with the fixed
billing-hours factor 104 times 6 = 624, independent of the hourly series. -/
theorem c8_peak_shaving_estimator (c : List ℚ) (thr m : ℚ)
    (hlen : c.length = 24) (hm : m ∈ c) (hub : ∀ x ∈ c, x ≤ m) :
    BessPs.compute_peak_shaving_savings c thr =
      (max 0 (m - thr), max 0 (m - thr) * 624) := by
  rw [BessPs.compute_peak_shaving_savings, pyMax_eq c m hm hub]
  have h624 : max 0 (m - thr) * 104 * 6 = max 0 (m - thr) * 624 := by ring
  rw [h624]

/-- C8 witness: the estimator applied to a concrete 24-hour series whose
maximum is 30, with threshold 12. -/
theorem c8_peak_shaving_estimator_witness :
    ((30 :: List.replicate 23 (5:ℚ)).length = 24 ∧
        (30:ℚ) ∈ (30 :: List.replicate 23 (5:ℚ)) ∧
        (∀ x ∈ (30 :: List.replicate 23 (5:ℚ)), x ≤ (30:ℚ))) ∧
      BessPs.compute_peak_shaving_savings (30 :: List.replicate 23 (5:ℚ)) 12 =
        (max 0 ((30:ℚ) - 12), max 0 ((30:ℚ) - 12) * 624) := by
  have h1 : (30 :: List.replicate 23 (5:ℚ)).length = 24 := by simp
  have h2 : (30:ℚ) ∈ (30 :: List.replicate 23 (5:ℚ)) := by simp
  have h3 : ∀ x ∈ (30 :: List.replicate 23 (5:ℚ)), x ≤ (30:ℚ) := by
    intro x hx
    rcases List.mem_cons.mp hx with rfl | hx2
    · exact le_refl _
    · have : x = 5 := List.eq_of_mem_replicate hx2
      rw [this]; norm_num
  exact ⟨⟨h1, h2, h3⟩, c8_peak_shaving_estimator _ 12 30 h1 h2 h3⟩

-- ## C3 and C4 counterexamples on the bess_ps.py optimizer

theorem lowestIdx_pC3 : lowestIdx pC3 = [0, 1, 2] := by
  norm_num [lowestIdx, isort, insertAsc, ascBy, pC3, List.range_succ, List.getD]

theorem highestIdx_pC3 : highestIdx pC3 = [23, 22, 21] := by
  norm_num [highestIdx, isort, insertAsc, descBy, pC3, List.range_succ, List.getD]

/-- C3 counterexample: on a valid input (zero consumption, 24 ascending
prices, threshold 0, battery power 100, capacity 50, efficiency 0.9, SOC
bounds 0.1 and 0.9, initial SOC 0.9), optimize_bess in bess_ps.py returns a
net grid load of -100 at hour 23: the discharging loop subtracts the full
battery power with no non-negativity guard. -/
theorem c3_counterexample :
    getQ (BessPs.optimize_bess (List.replicate 24 0) pC3 0 100 50 (9/10) (1/10)
        (9/10) (9/10)).2.2.1 23 < 0 := by
  have hlen : ¬ pC3.length < 3 := by norm_num [pC3]
  rw [BessPs.optimize_bess, if_neg hlen, lowestIdx_pC3, highestIdx_pC3]
  norm_num [BessPs.chStep, BessPs.disStep, getQ, List.replicate, List.getD, List.set, pC3]

theorem lowestIdx_pC4 : lowestIdx pC4 = [0, 1, 2] := by
  norm_num [lowestIdx, isort, insertAsc, ascBy, pC4, List.range_succ, List.getD]

theorem highestIdx_pC4 : highestIdx pC4 = [23, 22, 21] := by
  norm_num [highestIdx, isort, insertAsc, descBy, pC4, List.range_succ, List.getD]

/-- C4 counterexample: with battery capacity 0 (and battery power 100, zero
consumption, ascending prices), optimize_bess in bess_ps.py still schedules a
charge of 100 at hour 0 instead of the all-zero schedule: it never inspects
the capacity. -/
theorem c4_counterexample :
    getQ (BessPs.optimize_bess (List.replicate 24 0) pC4 0 100 0 (9/10) (1/10)
        (9/10) (9/10)).1 0 = 100 := by
  have hlen : ¬ pC4.length < 3 := by norm_num [pC4]
  rw [BessPs.optimize_bess, if_neg hlen, lowestIdx_pC4, highestIdx_pC4]
  norm_num [BessPs.chStep, BessPs.disStep, getQ, List.replicate, List.getD, List.set, pC4]

/-- C4 amended: the capacity-0 no-op holds for the optimizer of best_bess.py
(and main.py): the returned schedule is all-zero, the net grid load is the
consumption, and the savings computed from that net grid load are 0.  The
optimizer of bess_ps.py does not check the capacity and violates the claim. -/
theorem c4_amended_zero_capacity (c p : List ℚ) (thr pow eff mn mx : ℚ) :
    BestBess.optimize_bess c p thr pow 0 eff mn mx =
        (BestBess.zeros24, BestBess.zeros24, c) ∧
      (BestBess.calculate_savings c p c).2.2 = 0 := by
  constructor
  · simp [BestBess.optimize_bess]
  · simp [BestBess.calculate_savings]

-- ## C1 and C2 counterexamples on the best_bess.py optimizer

theorem range24_eq :
    List.range 24 =
      [0, 1, 2, 3, 4, 5, 6, 7, 8, 9, 10, 11, 12,
       13, 14, 15, 16, 17, 18, 19, 20, 21, 22, 23] := by decide

theorem lowestIdx_ones : lowestIdx (List.replicate 24 (1:ℚ)) = [0, 1, 2] := by
  rw [lowestIdx, isort_replicate_asc 1]
  decide

theorem highestIdx_ones : highestIdx (List.replicate 24 (1:ℚ)) = [0, 1, 2] := by
  rw [highestIdx, isort_replicate_desc 1]
  decide

/-- C1 counterexample: on a valid input (capacity 10, SOC floor 0.5, SOC
ceiling 1, efficiency 1, power 100, threshold 0, one 100 kWh peak hour,
equal prices), the peak-shaving pass of best_bess.py discharges down to
SOC 0, strictly below the floor 0.5 times 10 = 5: the pass bounds the
discharge by the whole SOC, not by the energy above the floor. -/
theorem c1_counterexample :
    ∃ s ∈ BestBess.socTrace cC1 (List.replicate 24 (1:ℚ)) 0 100 10 1 (1/2) 1,
      s < (1/2) * 10 := by
  rw [BestBess.socTrace, lowestIdx_ones, highestIdx_ones, range24_eq]
  norm_num [BestBess.socsOf, BestBess.ps1, BestBess.arbC, BestBess.arbD,
    BestBess.ps3, BestBess.initState, BestBess.zeros24, cC1, getQ,
    List.replicate, List.getD, List.set]

/-- C2 counterexample: with a 100 kWh peak at hour 0, threshold 10, power 5,
capacity 1000, efficiency 1, SOC bounds 0 and 1, equal prices, the returned
net grid load at hour 0 is 5, while consumption - discharge + charge is
100 - 10 + 0 = 90: the clamps of the shaving passes drop the difference. -/
theorem c2_counterexample :
    ¬ (getQ (BestBess.optimize_bess cC2 (List.replicate 24 (1:ℚ))
          10 5 1000 1 0 1).2.2 0 =
        getQ cC2 0 -
          getQ (BestBess.optimize_bess cC2 (List.replicate 24 (1:ℚ))
            10 5 1000 1 0 1).2.1 0 +
          getQ (BestBess.optimize_bess cC2 (List.replicate 24 (1:ℚ))
            10 5 1000 1 0 1).1 0) := by
  have hcap : (1000:ℚ) ≠ 0 := by norm_num
  rw [BestBess.optimize_bess, if_neg hcap, BestBess.bbRun, lowestIdx_ones,
    highestIdx_ones, range24_eq]
  norm_num [BestBess.ps1, BestBess.arbC, BestBess.arbD, BestBess.ps3,
    BestBess.initState, BestBess.zeros24, cC2, getQ,
    List.replicate, List.getD, List.set]

-- ## C6 counterexample on the best_bess.py optimizer

theorem lowestIdx_pC6 : lowestIdx pC6 = [1, 2, 3] := by
  norm_num [lowestIdx, isort, insertAsc, ascBy, pC6, List.range_succ, List.getD]

theorem highestIdx_pC6 : highestIdx pC6 = [0, 1, 2] := by
  norm_num [highestIdx, isort, insertAsc, descBy, pC6, List.range_succ, List.getD]

/-- C6 counterexample: with power limit 5, a 20 kWh peak at hour 0, threshold
10, capacity 100, efficiency 1, SOC bounds 0 and 1, and hour 0 the most
expensive hour, the peak-shaving pass discharges 5 at hour 0 and the
arbitrage pass adds another 5, so discharge[0] = 10 exceeds the power
limit 5. -/
theorem c6_counterexample :
    ¬ (getQ (BestBess.optimize_bess cC6 pC6 10 5 100 1 0 1).2.1 0 ≤ 5) := by
  have hcap : (100:ℚ) ≠ 0 := by norm_num
  rw [BestBess.optimize_bess, if_neg hcap, BestBess.bbRun, lowestIdx_pC6,
    highestIdx_pC6, range24_eq]
  norm_num [BestBess.ps1, BestBess.arbC, BestBess.arbD, BestBess.ps3,
    BestBess.initState, BestBess.zeros24, cC6, getQ,
    List.replicate, List.getD, List.set]

-- ## SOC bound invariant for the best_bess.py passes

namespace BestBess

theorem ps1_socb (thr pow eff cap mx : ℚ) (hpow : 0 ≤ pow) (heff : 0 < eff)
    (st : BState) (h : Nat) (hst : socb cap mx st) :
    socb cap mx (ps1 thr pow eff st h) := by
  obtain ⟨h0, h1⟩ := hst
  simp only [ps1]
  by_cases hc : thr < getQ st.net h
  · simp only [hc, if_true, socb]
    set d := min (getQ st.net h - thr) (min pow (st.soc * eff)) with hdef
    have hd0 : 0 ≤ d := le_min (by linarith) (le_min hpow (mul_nonneg h0 heff.le))
    have hdle : d ≤ st.soc * eff := le_trans (min_le_right _ _) (min_le_right _ _)
    have hdiv : d / eff ≤ st.soc := (div_le_iff heff).mpr hdle
    have hdivn : 0 ≤ d / eff := div_nonneg hd0 heff.le
    exact ⟨by linarith, by linarith⟩
  · simpa [hc, socb] using ⟨h0, h1⟩

end BestBess

namespace BestBess

theorem arbC_socb (thr pow cap eff mx : ℚ) (hpow : 0 ≤ pow) (heff : 0 < eff)
    (st : BState) (h : Nat) (hst : socb cap mx st) :
    socb cap mx (arbC thr pow cap eff mx st h) := by
  obtain ⟨h0, h1⟩ := hst
  simp only [arbC]
  by_cases hgap : st.soc < mx * cap
  · simp only [hgap, if_true]
    by_cases hok : getQ st.net h + min pow ((mx * cap - st.soc) / eff) ≤ thr
    · simp only [hok, if_true, socb]
      set c := min pow ((mx * cap - st.soc) / eff) with hcdef
      have hc0 : 0 ≤ c := le_min hpow (div_nonneg (by linarith) heff.le)
      have hcle : c ≤ (mx * cap - st.soc) / eff := min_le_right _ _
      have hmul : c * eff ≤ mx * cap - st.soc := (le_div_iff heff).mp hcle
      have hce : 0 ≤ c * eff := mul_nonneg hc0 heff.le
      exact ⟨by linarith, by linarith⟩
    · simpa [hok, socb] using ⟨h0, h1⟩
  · simpa [hgap, socb] using ⟨h0, h1⟩

theorem arbD_socb (pow cap eff mn mx : ℚ) (hpow : 0 ≤ pow) (heff : 0 < eff)
    (st : BState) (h : Nat) (hst : socb cap mx st) :
    socb cap mx (arbD pow cap eff mn st h) := by
  obtain ⟨h0, h1⟩ := hst
  simp only [arbD]
  by_cases hguard : mn * cap < st.soc
  · simp only [hguard, if_true]
    by_cases hok : 0 ≤ getQ st.net h - min pow (st.soc * eff)
    · simp only [hok, if_true, socb]
      set d := min pow (st.soc * eff) with hddef
      have hd0 : 0 ≤ d := le_min hpow (mul_nonneg h0 heff.le)
      have hdle : d ≤ st.soc * eff := min_le_right _ _
      have hdiv : d / eff ≤ st.soc := (div_le_iff heff).mpr hdle
      have hdivn : 0 ≤ d / eff := div_nonneg hd0 heff.le
      exact ⟨by linarith, by linarith⟩
    · simpa [hok, socb] using ⟨h0, h1⟩
  · simpa [hguard, socb] using ⟨h0, h1⟩

theorem ps3_socb (thr pow cap eff mx : ℚ) (hpow : 0 ≤ pow) (heff : 0 < eff)
    (st : BState) (h : Nat) (hst : socb cap mx st) :
    socb cap mx (ps3 thr pow cap eff mx st h) := by
  obtain ⟨h0, h1⟩ := hst
  simp only [ps3]
  by_cases hc : thr < getQ st.net h
  · simp only [hc, if_true]
    set d := min (getQ st.net h - thr) (min pow (st.soc * eff)) with hddef
    have hd0 : 0 ≤ d := le_min (by linarith) (le_min hpow (mul_nonneg h0 heff.le))
    have hdle : d ≤ st.soc * eff := le_trans (min_le_right _ _) (min_le_right _ _)
    have hdiv : d / eff ≤ st.soc := (div_le_iff heff).mpr hdle
    have hdivn : 0 ≤ d / eff := div_nonneg hd0 heff.le
    by_cases hneg : getQ (st.net.set h (min (getQ st.net h - d) thr)) h < 0
    · simp only [hneg, if_true, socb]
      set c := min (-getQ (st.net.set h (min (getQ st.net h - d) thr)) h)
        (min pow ((mx * cap - (st.soc - d / eff)) / eff)) with hcdef
      have hc0 : 0 ≤ c :=
        le_min (by linarith) (le_min hpow (div_nonneg (by linarith) heff.le))
      have hcle : c ≤ (mx * cap - (st.soc - d / eff)) / eff :=
        le_trans (min_le_right _ _) (min_le_right _ _)
      have hmul : c * eff ≤ mx * cap - (st.soc - d / eff) := (le_div_iff heff).mp hcle
      have hce : 0 ≤ c * eff := mul_nonneg hc0 heff.le
      exact ⟨by linarith, by linarith⟩
    · simp only [hneg, if_false, socb]
      exact ⟨by linarith, by linarith⟩
  · simp only [hc, if_false]
    by_cases hneg : getQ st.net h < 0
    · simp only [hneg, if_true, socb]
      set c := min (-getQ st.net h) (min pow ((mx * cap - st.soc) / eff)) with hcdef
      have hc0 : 0 ≤ c :=
        le_min (by linarith) (le_min hpow (div_nonneg (by linarith) heff.le))
      have hcle : c ≤ (mx * cap - st.soc) / eff :=
        le_trans (min_le_right _ _) (min_le_right _ _)
      have hmul : c * eff ≤ mx * cap - st.soc := (le_div_iff heff).mp hcle
      have hce : 0 ≤ c * eff := mul_nonneg hc0 heff.le
      exact ⟨by linarith, by linarith⟩
    · simpa [hneg, socb] using ⟨h0, h1⟩

/-- Every SOC value collected by socsOf satisfies the SOC window when the
step function preserves it. -/
theorem socsOf_socb (cap mx : ℚ) (f : BState → Nat → BState)
    (hf : ∀ st a, socb cap mx st → socb cap mx (f st a)) :
    ∀ (l : List Nat) (st : BState), socb cap mx st →
      ∀ s ∈ socsOf f st l, 0 ≤ s ∧ s ≤ mx * cap := by
  intro l
  induction l with
  | nil => intro st _ s hs; simp [socsOf] at hs
  | cons a as ih =>
    intro st hst s hs
    simp only [socsOf, List.mem_cons] at hs
    rcases hs with rfl | hs2
    · exact hf st a hst
    · exact ih (f st a) (hf st a hst) s hs2

end BestBess

/-- C1 amended: on valid inputs (non-negative power limit, positive
efficiency, non-negative SOC ceiling in kWh), the SOC maintained by
optimize_bess in best_bess.py stays within [0, socCeiling * capacity] at
every hour boundary of every pass; the claimed lower bound
socFloor * capacity does not hold (the peak-shaving and enforcement passes
bound the discharge by the whole SOC, ignoring the floor). -/
theorem c1_amended_soc_window (c p : List ℚ) (thr pow cap eff mn mx : ℚ)
    (hpow : 0 ≤ pow) (heff : 0 < eff) (hmx : 0 ≤ mx * cap) :
    ∀ s ∈ BestBess.socTrace c p thr pow cap eff mn mx, 0 ≤ s ∧ s ≤ mx * cap := by
  intro s hs
  have hstep1 : ∀ st a, BestBess.socb cap mx st →
      BestBess.socb cap mx (BestBess.ps1 thr pow eff st a) :=
    fun st a => BestBess.ps1_socb thr pow eff cap mx hpow heff st a
  have hstep2 : ∀ st a, BestBess.socb cap mx st →
      BestBess.socb cap mx (BestBess.arbC thr pow cap eff mx st a) :=
    fun st a => BestBess.arbC_socb thr pow cap eff mx hpow heff st a
  have hstep3 : ∀ st a, BestBess.socb cap mx st →
      BestBess.socb cap mx (BestBess.arbD pow cap eff mn st a) :=
    fun st a => BestBess.arbD_socb pow cap eff mn mx hpow heff st a
  have hstep4 : ∀ st a, BestBess.socb cap mx st →
      BestBess.socb cap mx (BestBess.ps3 thr pow cap eff mx st a) :=
    fun st a => BestBess.ps3_socb thr pow cap eff mx hpow heff st a
  have h0 : BestBess.socb cap mx (BestBess.initState c cap mx) := by
    refine ⟨hmx, le_refl _⟩
  have hb1 : BestBess.socb cap mx
      ((List.range 24).foldl (BestBess.ps1 thr pow eff)
        (BestBess.initState c cap mx)) :=
    foldl_preserve _ hstep1 _ _ h0
  have hb2 : BestBess.socb cap mx
      ((lowestIdx p).foldl (BestBess.arbC thr pow cap eff mx)
        ((List.range 24).foldl (BestBess.ps1 thr pow eff)
          (BestBess.initState c cap mx))) :=
    foldl_preserve _ hstep2 _ _ hb1
  have hb3 : BestBess.socb cap mx
      ((highestIdx p).foldl (BestBess.arbD pow cap eff mn)
        ((lowestIdx p).foldl (BestBess.arbC thr pow cap eff mx)
          ((List.range 24).foldl (BestBess.ps1 thr pow eff)
            (BestBess.initState c cap mx)))) :=
    foldl_preserve _ hstep3 _ _ hb2
  simp only [BestBess.socTrace, List.mem_cons, List.mem_append] at hs
  rcases hs with rfl | ⟨⟨hm | hm⟩ | hm⟩ | hm
  · exact h0
  · exact BestBess.socsOf_socb cap mx _ hstep1 _ _ h0 s hm
  · exact BestBess.socsOf_socb cap mx _ hstep2 _ _ hb1 s hm
  · exact BestBess.socsOf_socb cap mx _ hstep3 _ _ hb2 s hm
  · exact BestBess.socsOf_socb cap mx _ hstep4 _ _ hb3 s hm

/-- C1 amended witness: the SOC window theorem applied at a concrete valid
input (capacity 10, efficiency 1, power 100, ceiling 1). -/
theorem c1_amended_soc_window_witness :
    ((0:ℚ) ≤ 100 ∧ (0:ℚ) < 1 ∧ (0:ℚ) ≤ 1 * 10) ∧
      (∀ s ∈ BestBess.socTrace (List.replicate 24 5) (List.replicate 24 1)
          20 100 10 1 (1/10) 1, 0 ≤ s ∧ s ≤ 1 * 10) :=
  ⟨⟨by norm_num, by norm_num, by norm_num⟩,
    c1_amended_soc_window (List.replicate 24 5) (List.replicate 24 1)
      20 100 10 1 (1/10) 1 (by norm_num) (by norm_num) (by norm_num)⟩

namespace BestBess

theorem ps1_net_len (thr pow eff : ℚ) (st : BState) (h : Nat) :
    (ps1 thr pow eff st h).net.length = st.net.length := by
  simp only [ps1]
  split_ifs <;> simp

theorem arbC_net_len (thr pow cap eff mx : ℚ) (st : BState) (h : Nat) :
    (arbC thr pow cap eff mx st h).net.length = st.net.length := by
  simp only [arbC]
  split_ifs <;> simp

theorem arbD_net_len (pow cap eff mn : ℚ) (st : BState) (h : Nat) :
    (arbD pow cap eff mn st h).net.length = st.net.length := by
  simp only [arbD]
  split_ifs <;> simp

theorem ps3_net_len (thr pow cap eff mx : ℚ) (st : BState) (h : Nat) :
    (ps3 thr pow cap eff mx st h).net.length = st.net.length := by
  simp only [ps3]
  split_ifs <;> simp

theorem ps3_net_frame (thr pow cap eff mx : ℚ) (st : BState) (h j : Nat)
    (hne : j ≠ h) :
    getQ (ps3 thr pow cap eff mx st h).net j = getQ st.net j := by
  simp only [ps3]
  split_ifs <;> simp [getQ_set_other _ _ _ _ hne]

theorem ps3_net_establish (thr pow cap eff mx : ℚ) (hthr : 0 ≤ thr)
    (st : BState) (h : Nat) (hlen : h < st.net.length) :
    0 ≤ getQ (ps3 thr pow cap eff mx st h).net h := by
  simp only [ps3]
  by_cases hc : thr < getQ st.net h
  · simp only [hc, if_true]
    set d := min (getQ st.net h - thr) (min pow (st.soc * eff)) with hddef
    have hdle : d ≤ getQ st.net h - thr := min_le_left _ _
    have hv : getQ (st.net.set h (min (getQ st.net h - d) thr)) h
        = min (getQ st.net h - d) thr := getQ_set_self _ _ _ hlen
    have hv0 : 0 ≤ min (getQ st.net h - d) thr := le_min (by linarith) hthr
    rw [hv, if_neg (not_lt.mpr hv0), hv]
    exact hv0
  · simp only [hc, if_false]
    by_cases hneg : getQ st.net h < 0
    · simp only [hneg, if_true]
      rw [getQ_set_self _ _ _ hlen]
      exact le_max_right _ _
    · simpa [hneg] using not_lt.mp hneg

theorem netLen24_after_three (c p : List ℚ) (thr pow cap eff mn mx : ℚ)
    (hc : c.length = 24) :
    ((highestIdx p).foldl (arbD pow cap eff mn)
      ((lowestIdx p).foldl (arbC thr pow cap eff mx)
        ((List.range 24).foldl (ps1 thr pow eff)
          (initState c cap mx)))).net.length = 24 := by
  have h1 : ((List.range 24).foldl (ps1 thr pow eff)
      (initState c cap mx)).net.length = 24 :=
    foldl_preserve (P := fun st : BState => st.net.length = 24) _
      (fun st a ha => (ps1_net_len thr pow eff st a).trans ha) _ _
      (by simpa [initState] using hc)
  have h2 : ((lowestIdx p).foldl (arbC thr pow cap eff mx)
      ((List.range 24).foldl (ps1 thr pow eff)
        (initState c cap mx))).net.length = 24 :=
    foldl_preserve (P := fun st : BState => st.net.length = 24) _
      (fun st a ha => (arbC_net_len thr pow cap eff mx st a).trans ha) _ _ h1
  exact foldl_preserve (P := fun st : BState => st.net.length = 24) _
    (fun st a ha => (arbD_net_len pow cap eff mn st a).trans ha) _ _ h2

theorem ps3_fold_net_nonneg (thr pow cap eff mx : ℚ) (hthr : 0 ≤ thr) :
    ∀ n : Nat, n ≤ 24 → ∀ st : BState, st.net.length = 24 → ∀ j, j < n →
      0 ≤ getQ ((List.range n).foldl (ps3 thr pow cap eff mx) st).net j := by
  intro n
  induction n with
  | zero => intro _ st _ j hj; omega
  | succ m ih =>
    intro hm st hlen j hj
    rw [List.range_succ, List.foldl_append, List.foldl_cons, List.foldl_nil]
    have hlenM : ((List.range m).foldl (ps3 thr pow cap eff mx) st).net.length = 24 :=
      foldl_preserve (P := fun st2 : BState => st2.net.length = 24) _
        (fun st2 a ha => (ps3_net_len thr pow cap eff mx st2 a).trans ha) _ st hlen
    by_cases hjm : j < m
    · rw [ps3_net_frame _ _ _ _ _ _ _ _ (by omega : j ≠ m)]
      exact ih (by omega) st hlen j hjm
    · have hjeq : j = m := by omega
      subst hjeq
      exact ps3_net_establish _ _ _ _ _ hthr _ j (by rw [hlenM]; omega)

end BestBess

/-- C3 amended: the optimizer of best_bess.py returns a non-negative net
grid load at every hour, for every valid input (24-entry non-negative
consumption, non-negative threshold); the optimizer of bess_ps.py violates
the claim by discharging the full battery power with no guard. -/
theorem c3_amended_net_nonneg (c p : List ℚ) (thr pow cap eff mn mx : ℚ)
    (hc : c.length = 24) (hthr : 0 ≤ thr) (hcons : ∀ x ∈ c, 0 ≤ x) :
    ∀ h, h < 24 →
      0 ≤ getQ (BestBess.optimize_bess c p thr pow cap eff mn mx).2.2 h := by
  intro h hh
  rw [BestBess.optimize_bess]
  by_cases hcap : cap = 0
  · rw [if_pos hcap]
    exact hcons _ (mem_of_getQ c h (by omega))
  · rw [if_neg hcap]
    have hlen3 := BestBess.netLen24_after_three c p thr pow cap eff mn mx hc
    exact BestBess.ps3_fold_net_nonneg thr pow cap eff mx hthr 24 (le_refl 24) _ hlen3 h hh

/-- C3 amended witness: non-negativity of the best_bess.py net grid load at
a concrete valid input. -/
theorem c3_amended_net_nonneg_witness :
    ((List.replicate 24 (7:ℚ)).length = 24 ∧ (0:ℚ) ≤ 5 ∧
        (∀ x ∈ List.replicate 24 (7:ℚ), (0:ℚ) ≤ x)) ∧
      (∀ h, h < 24 →
        0 ≤ getQ (BestBess.optimize_bess (List.replicate 24 7)
          (List.replicate 24 1) 5 2 40 (9/10) (1/10) (9/10)).2.2 h) :=
  ⟨⟨by simp, by norm_num, fun x hx => by
      rw [List.eq_of_mem_replicate hx]; norm_num⟩,
    c3_amended_net_nonneg (List.replicate 24 7) (List.replicate 24 1)
      5 2 40 (9/10) (1/10) (9/10) (by simp) (by norm_num)
      (fun x hx => by rw [List.eq_of_mem_replicate hx]; norm_num)⟩

-- ## Charge and discharge bound lemmas for the best_bess.py passes

theorem foldl_mem_preserve {α : Type} {P : α → Prop} (f : α → Nat → α) :
    ∀ (l : List Nat), (∀ st a, a ∈ l → P st → P (f st a)) →
      ∀ st, P st → P (l.foldl f st) := by
  intro l
  induction l with
  | nil => intro _ st h; simpa using h
  | cons a as ih =>
    intro hf st h
    rw [List.foldl_cons]
    exact ih (fun st2 b hb h2 => hf st2 b (List.mem_cons_of_mem a hb) h2)
      (f st a) (hf st a (List.mem_cons_self a as) h)

namespace BestBess

theorem ps1_charge_eq (thr pow eff : ℚ) (st : BState) (h : Nat) :
    (ps1 thr pow eff st h).charge = st.charge := by
  simp only [ps1]
  split_ifs <;> rfl

theorem arbD_charge_eq (pow cap eff mn : ℚ) (st : BState) (h : Nat) :
    (arbD pow cap eff mn st h).charge = st.charge := by
  simp only [arbD]
  split_ifs <;> rfl

theorem arbC_discharge_eq (thr pow cap eff mx : ℚ) (st : BState) (h : Nat) :
    (arbC thr pow cap eff mx st h).discharge = st.discharge := by
  simp only [arbC]
  split_ifs <;> rfl

theorem ps1_dis_len (thr pow eff : ℚ) (st : BState) (h : Nat) :
    (ps1 thr pow eff st h).discharge.length = st.discharge.length := by
  simp only [ps1]
  split_ifs <;> simp

theorem arbD_dis_len (pow cap eff mn : ℚ) (st : BState) (h : Nat) :
    (arbD pow cap eff mn st h).discharge.length = st.discharge.length := by
  simp only [arbD]
  split_ifs <;> simp

theorem arbC_chg_len (thr pow cap eff mx : ℚ) (st : BState) (h : Nat) :
    (arbC thr pow cap eff mx st h).charge.length = st.charge.length := by
  simp only [arbC]
  split_ifs <;> simp

theorem ps3_dis_len (thr pow cap eff mx : ℚ) (st : BState) (h : Nat) :
    (ps3 thr pow cap eff mx st h).discharge.length = st.discharge.length := by
  simp only [ps3]
  split_ifs <;> simp

theorem ps3_chg_len (thr pow cap eff mx : ℚ) (st : BState) (h : Nat) :
    (ps3 thr pow cap eff mx st h).charge.length = st.charge.length := by
  simp only [ps3]
  split_ifs <;> simp

theorem ps1_dis_frame (thr pow eff : ℚ) (st : BState) (h j : Nat) (hne : j ≠ h) :
    getQ (ps1 thr pow eff st h).discharge j = getQ st.discharge j := by
  simp only [ps1]
  split_ifs <;> simp [getQ_set_other _ _ _ _ hne]

theorem arbD_dis_frame (pow cap eff mn : ℚ) (st : BState) (h j : Nat) (hne : j ≠ h) :
    getQ (arbD pow cap eff mn st h).discharge j = getQ st.discharge j := by
  simp only [arbD]
  split_ifs <;> simp [getQ_set_other _ _ _ _ hne]

theorem arbC_chg_frame (thr pow cap eff mx : ℚ) (st : BState) (h j : Nat)
    (hne : j ≠ h) :
    getQ (arbC thr pow cap eff mx st h).charge j = getQ st.charge j := by
  simp only [arbC]
  split_ifs <;> simp [getQ_set_other _ _ _ _ hne]

theorem ps3_dis_frame (thr pow cap eff mx : ℚ) (st : BState) (h j : Nat)
    (hne : j ≠ h) :
    getQ (ps3 thr pow cap eff mx st h).discharge j = getQ st.discharge j := by
  simp only [ps3]
  split_ifs <;> simp [getQ_set_other _ _ _ _ hne]

theorem ps3_chg_frame (thr pow cap eff mx : ℚ) (st : BState) (h j : Nat)
    (hne : j ≠ h) :
    getQ (ps3 thr pow cap eff mx st h).charge j = getQ st.charge j := by
  simp only [ps3]
  split_ifs <;> simp [getQ_set_other _ _ _ _ hne]

theorem ps1_dis_own (thr pow eff cap mx : ℚ) (hpow : 0 ≤ pow) (heff : 0 < eff)
    (st : BState) (h : Nat) (hsoc : socb cap mx st)
    (hlen : h < st.discharge.length)
    (hold : 0 ≤ getQ st.discharge h ∧ getQ st.discharge h ≤ pow) :
    0 ≤ getQ (ps1 thr pow eff st h).discharge h ∧
      getQ (ps1 thr pow eff st h).discharge h ≤ pow := by
  simp only [ps1]
  by_cases hc : thr < getQ st.net h
  · simp only [hc, if_true]
    rw [getQ_set_self _ _ _ hlen]
    constructor
    · exact le_min (by linarith) (le_min hpow (mul_nonneg hsoc.1 heff.le))
    · exact le_trans (min_le_right _ _) (min_le_left _ _)
  · simpa [hc] using hold

theorem arbD_dis_own (pow cap eff mn mx : ℚ) (hpow : 0 ≤ pow) (heff : 0 < eff)
    (st : BState) (h : Nat) (hsoc : socb cap mx st)
    (hlen : h < st.discharge.length) :
    getQ st.discharge h ≤ getQ (arbD pow cap eff mn st h).discharge h ∧
      getQ (arbD pow cap eff mn st h).discharge h ≤ getQ st.discharge h + pow := by
  simp only [arbD]
  by_cases hguard : mn * cap < st.soc
  · simp only [hguard, if_true]
    by_cases hok : 0 ≤ getQ st.net h - min pow (st.soc * eff)
    · simp only [hok, if_true]
      rw [getQ_set_self _ _ _ hlen]
      have hd0 : 0 ≤ min pow (st.soc * eff) :=
        le_min hpow (mul_nonneg hsoc.1 heff.le)
      have hdp : min pow (st.soc * eff) ≤ pow := min_le_left _ _
      constructor <;> linarith
    · simp only [hok, if_false]
      constructor <;> linarith
  · simp only [hguard, if_false]
    constructor <;> linarith

theorem arbC_chg_own (thr pow cap eff mx : ℚ) (hpow : 0 ≤ pow) (heff : 0 < eff)
    (st : BState) (h : Nat) (hlen : h < st.charge.length)
    (hold : 0 ≤ getQ st.charge h ∧ getQ st.charge h ≤ pow) :
    0 ≤ getQ (arbC thr pow cap eff mx st h).charge h ∧
      getQ (arbC thr pow cap eff mx st h).charge h ≤ pow := by
  simp only [arbC]
  by_cases hgap : st.soc < mx * cap
  · simp only [hgap, if_true]
    by_cases hok : getQ st.net h + min pow ((mx * cap - st.soc) / eff) ≤ thr
    · simp only [hok, if_true]
      rw [getQ_set_self _ _ _ hlen]
      exact ⟨le_min hpow (div_nonneg (by linarith) heff.le), min_le_left _ _⟩
    · simpa [hok] using hold
  · simpa [hgap] using hold

end BestBess

namespace BestBess

theorem ps1_fold_c6 (thr pow eff cap mx : ℚ) (hpow : 0 ≤ pow) (heff : 0 < eff)
    (l : List Nat) (hl : ∀ a ∈ l, a < 24) (st : BState)
    (hst : socb cap mx st ∧ st.discharge.length = 24 ∧ st.charge = zeros24 ∧
      (∀ j, 0 ≤ getQ st.discharge j ∧ getQ st.discharge j ≤ pow)) :
    socb cap mx (l.foldl (ps1 thr pow eff) st) ∧
      (l.foldl (ps1 thr pow eff) st).discharge.length = 24 ∧
      (l.foldl (ps1 thr pow eff) st).charge = zeros24 ∧
      (∀ j, 0 ≤ getQ (l.foldl (ps1 thr pow eff) st).discharge j ∧
        getQ (l.foldl (ps1 thr pow eff) st).discharge j ≤ pow) := by
  refine foldl_mem_preserve (P := fun st2 : BState =>
    socb cap mx st2 ∧ st2.discharge.length = 24 ∧ st2.charge = zeros24 ∧
      (∀ j, 0 ≤ getQ st2.discharge j ∧ getQ st2.discharge j ≤ pow))
    _ l ?_ st hst
  intro st2 a ha ⟨h1, h2, h3, h4⟩
  refine ⟨ps1_socb thr pow eff cap mx hpow heff st2 a h1,
    (ps1_dis_len thr pow eff st2 a).trans h2,
    (ps1_charge_eq thr pow eff st2 a).trans h3, ?_⟩
  intro j
  by_cases hja : j = a
  · subst hja
    exact ps1_dis_own thr pow eff cap mx hpow heff st2 j h1
      (by rw [h2]; exact hl j ha) (h4 j)
  · rw [ps1_dis_frame thr pow eff st2 a j hja]
    exact h4 j

theorem arbC_fold_c6 (thr pow cap eff mx : ℚ) (hpow : 0 ≤ pow) (heff : 0 < eff)
    (l : List Nat) (hl : ∀ a ∈ l, a < 24) (st : BState)
    (hst : socb cap mx st ∧ st.discharge.length = 24 ∧ st.charge.length = 24 ∧
      (∀ j, 0 ≤ getQ st.charge j ∧ getQ st.charge j ≤ pow) ∧
      (∀ j, 0 ≤ getQ st.discharge j ∧ getQ st.discharge j ≤ pow)) :
    socb cap mx (l.foldl (arbC thr pow cap eff mx) st) ∧
      (l.foldl (arbC thr pow cap eff mx) st).discharge.length = 24 ∧
      (l.foldl (arbC thr pow cap eff mx) st).charge.length = 24 ∧
      (∀ j, 0 ≤ getQ (l.foldl (arbC thr pow cap eff mx) st).charge j ∧
        getQ (l.foldl (arbC thr pow cap eff mx) st).charge j ≤ pow) ∧
      (∀ j, 0 ≤ getQ (l.foldl (arbC thr pow cap eff mx) st).discharge j ∧
        getQ (l.foldl (arbC thr pow cap eff mx) st).discharge j ≤ pow) := by
  refine foldl_mem_preserve (P := fun st2 : BState =>
    socb cap mx st2 ∧ st2.discharge.length = 24 ∧ st2.charge.length = 24 ∧
      (∀ j, 0 ≤ getQ st2.charge j ∧ getQ st2.charge j ≤ pow) ∧
      (∀ j, 0 ≤ getQ st2.discharge j ∧ getQ st2.discharge j ≤ pow))
    _ l ?_ st hst
  intro st2 a ha ⟨h1, h2, h3, h4, h5⟩
  refine ⟨arbC_socb thr pow cap eff mx hpow heff st2 a h1,
    (congrArg List.length (arbC_discharge_eq thr pow cap eff mx st2 a)).trans h2,
    (arbC_chg_len thr pow cap eff mx st2 a).trans h3, ?_, ?_⟩
  · intro j
    by_cases hja : j = a
    · subst hja
      exact arbC_chg_own thr pow cap eff mx hpow heff st2 j
        (by rw [h3]; exact hl j ha) (h4 j)
    · rw [arbC_chg_frame thr pow cap eff mx st2 a j hja]
      exact h4 j
  · intro j
    rw [arbC_discharge_eq thr pow cap eff mx st2 a]
    exact h5 j

theorem arbD_fold_c6 (pow cap eff mn mx : ℚ) (hpow : 0 ≤ pow) (heff : 0 < eff) :
    ∀ l : List Nat, l.Nodup → (∀ a ∈ l, a < 24) →
      ∀ st : BState,
        socb cap mx st → st.discharge.length = 24 → st.charge.length = 24 →
        (∀ j, 0 ≤ getQ st.charge j ∧ getQ st.charge j ≤ pow) →
        (∀ j, 0 ≤ getQ st.discharge j ∧ getQ st.discharge j ≤ 2 * pow) →
        (∀ j ∈ l, getQ st.discharge j ≤ pow) →
        socb cap mx (l.foldl (arbD pow cap eff mn) st) ∧
          (l.foldl (arbD pow cap eff mn) st).discharge.length = 24 ∧
          (l.foldl (arbD pow cap eff mn) st).charge.length = 24 ∧
          (∀ j, 0 ≤ getQ (l.foldl (arbD pow cap eff mn) st).charge j ∧
            getQ (l.foldl (arbD pow cap eff mn) st).charge j ≤ pow) ∧
          (∀ j, 0 ≤ getQ (l.foldl (arbD pow cap eff mn) st).discharge j ∧
            getQ (l.foldl (arbD pow cap eff mn) st).discharge j ≤ 2 * pow) := by
  intro l
  induction l with
  | nil =>
    intro _ _ st h1 h2 h3 h4 h5 _
    exact ⟨h1, h2, h3, h4, h5⟩
  | cons a as ih =>
    intro hnd hlt st h1 h2 h3 h4 h5 h6
    rw [List.foldl_cons]
    have ha24 : a < 24 := hlt a (List.mem_cons_self a as)
    have hsoc2 := arbD_socb pow cap eff mn mx hpow heff st a h1
    have hlen2 : (arbD pow cap eff mn st a).discharge.length = 24 :=
      (arbD_dis_len pow cap eff mn st a).trans h2
    have hlenC2 : (arbD pow cap eff mn st a).charge.length = 24 :=
      (congrArg List.length (arbD_charge_eq pow cap eff mn st a)).trans h3
    have hchg2 : ∀ j, 0 ≤ getQ (arbD pow cap eff mn st a).charge j ∧
        getQ (arbD pow cap eff mn st a).charge j ≤ pow := by
      intro j
      rw [arbD_charge_eq pow cap eff mn st a]
      exact h4 j
    have hdis2 : ∀ j, 0 ≤ getQ (arbD pow cap eff mn st a).discharge j ∧
        getQ (arbD pow cap eff mn st a).discharge j ≤ 2 * pow := by
      intro j
      by_cases hja : j = a
      · subst hja
        have hown := arbD_dis_own pow cap eff mn mx hpow heff st j h1
          (by rw [h2]; exact ha24)
        have hja2 := h6 j (List.mem_cons_self j as)
        exact ⟨le_trans (h5 j).1 hown.1, by linarith [hown.2]⟩
      · rw [arbD_dis_frame pow cap eff mn st a j hja]
        exact h5 j
    have hrem2 : ∀ j ∈ as, getQ (arbD pow cap eff mn st a).discharge j ≤ pow := by
      intro j hj
      have hja : j ≠ a := by
        intro heq
        subst heq
        exact (List.nodup_cons.mp hnd).1 hj
      rw [arbD_dis_frame pow cap eff mn st a j hja]
      exact h6 j (List.mem_cons_of_mem a hj)
    exact ih (List.nodup_cons.mp hnd).2
      (fun b hb => hlt b (List.mem_cons_of_mem a hb)) _
      hsoc2 hlen2 hlenC2 hchg2 hdis2 hrem2

end BestBess

-- ## Identity invariant machinery for C2

namespace BestBess

theorem ps1_noop (thr pow eff : ℚ) (st : BState) (a : Nat)
    (hble : ¬ thr < getQ st.net a) : ps1 thr pow eff st a = st := by
  simp only [ps1]
  rw [if_neg hble]

theorem ps3_noop (thr pow cap eff mx : ℚ) (st : BState) (a : Nat)
    (hble : ¬ thr < getQ st.net a) (hnn : ¬ getQ st.net a < 0) :
    ps3 thr pow cap eff mx st a = st := by
  simp only [ps3]
  rw [if_neg hble, if_neg hnn]

theorem arbC_noop1 (thr pow cap eff mx : ℚ) (st : BState) (a : Nat)
    (h : ¬ st.soc < mx * cap) : arbC thr pow cap eff mx st a = st := by
  simp only [arbC]
  rw [if_neg h]

theorem arbC_noop2 (thr pow cap eff mx : ℚ) (st : BState) (a : Nat)
    (hgap : st.soc < mx * cap)
    (h : ¬ getQ st.net a + min pow ((mx * cap - st.soc) / eff) ≤ thr) :
    arbC thr pow cap eff mx st a = st := by
  simp only [arbC]
  rw [if_pos hgap, if_neg h]

theorem arbD_noop1 (pow cap eff mn : ℚ) (st : BState) (a : Nat)
    (h : ¬ mn * cap < st.soc) : arbD pow cap eff mn st a = st := by
  simp only [arbD]
  rw [if_neg h]

theorem arbD_noop2 (pow cap eff mn : ℚ) (st : BState) (a : Nat)
    (hguard : mn * cap < st.soc)
    (h : ¬ 0 ≤ getQ st.net a - min pow (st.soc * eff)) :
    arbD pow cap eff mn st a = st := by
  simp only [arbD]
  rw [if_pos hguard, if_neg h]

theorem arbC_fire (thr pow cap eff mx : ℚ) (st : BState) (a : Nat)
    (hgap : st.soc < mx * cap)
    (hok : getQ st.net a + min pow ((mx * cap - st.soc) / eff) ≤ thr) :
    arbC thr pow cap eff mx st a =
      { st with
        charge := st.charge.set a (min pow ((mx * cap - st.soc) / eff)),
        soc := st.soc + min pow ((mx * cap - st.soc) / eff) * eff,
        net := st.net.set a
          (getQ st.net a + min pow ((mx * cap - st.soc) / eff)) } := by
  simp only [arbC]
  rw [if_pos hgap, if_pos hok]

theorem arbD_fire (pow cap eff mn : ℚ) (st : BState) (a : Nat)
    (hguard : mn * cap < st.soc)
    (hok : 0 ≤ getQ st.net a - min pow (st.soc * eff)) :
    arbD pow cap eff mn st a =
      { st with
        discharge := st.discharge.set a
          (getQ st.discharge a + min pow (st.soc * eff)),
        soc := st.soc - min pow (st.soc * eff) / eff,
        net := st.net.set a (getQ st.net a - min pow (st.soc * eff)) } := by
  simp only [arbD]
  rw [if_pos hguard, if_pos hok]

theorem ps1_fold_noop (c : List ℚ) (thr pow eff cap mx : ℚ) :
    ∀ l : List Nat, (∀ a ∈ l, a < 24) → ∀ st : BState, inv2 c thr cap mx st →
      l.foldl (ps1 thr pow eff) st = st := by
  intro l
  induction l with
  | nil => intro _ st _; rfl
  | cons a as ih =>
    intro hlt st hst
    have ha24 : a < 24 := hlt a (List.mem_cons_self a as)
    have hnoop : ps1 thr pow eff st a = st :=
      ps1_noop thr pow eff st a (not_lt.mpr (hst.2.2.2.2.2 a ha24).2)
    rw [List.foldl_cons, hnoop]
    exact ih (fun b hb => hlt b (List.mem_cons_of_mem a hb)) st hst

theorem ps3_fold_noop (c : List ℚ) (thr pow cap eff mx : ℚ) :
    ∀ l : List Nat, (∀ a ∈ l, a < 24) → ∀ st : BState, inv2 c thr cap mx st →
      l.foldl (ps3 thr pow cap eff mx) st = st := by
  intro l
  induction l with
  | nil => intro _ st _; rfl
  | cons a as ih =>
    intro hlt st hst
    have ha24 : a < 24 := hlt a (List.mem_cons_self a as)
    have hnoop : ps3 thr pow cap eff mx st a = st :=
      ps3_noop thr pow cap eff mx st a
        (not_lt.mpr (hst.2.2.2.2.2 a ha24).2)
        (not_lt.mpr (hst.2.2.2.2.2 a ha24).1)
    rw [List.foldl_cons, hnoop]
    exact ih (fun b hb => hlt b (List.mem_cons_of_mem a hb)) st hst

end BestBess

namespace BestBess

theorem arbC_inv2_step (c : List ℚ) (thr pow cap eff mx : ℚ) (hpow : 0 ≤ pow)
    (heff : 0 < eff) (st : BState) (a : Nat) (ha : a < 24)
    (hst : inv2 c thr cap mx st) (hz : getQ st.charge a = 0) :
    inv2 c thr cap mx (arbC thr pow cap eff mx st a) := by
  obtain ⟨hsoc, hlenC, hlenD, hlenN, hid, hbnd⟩ := hst
  have hsoc2 := arbC_socb thr pow cap eff mx hpow heff st a hsoc
  by_cases hgap : st.soc < mx * cap
  · by_cases hok : getQ st.net a + min pow ((mx * cap - st.soc) / eff) ≤ thr
    · rw [arbC_fire thr pow cap eff mx st a hgap hok] at hsoc2 ⊢
      set cc := min pow ((mx * cap - st.soc) / eff) with hcc
      have hcc0 : 0 ≤ cc := le_min hpow (div_nonneg (by linarith) heff.le)
      refine ⟨hsoc2, by simpa using hlenC, by simpa using hlenD,
        by simpa using hlenN, ?_, ?_⟩
      · intro j hj
        by_cases hja : j = a
        · subst hja
          show getQ (st.net.set j (getQ st.net j + cc)) j =
            getQ c j - getQ st.discharge j + getQ (st.charge.set j cc) j
          rw [getQ_set_self _ _ _ (by rw [hlenN]; exact ha),
            getQ_set_self _ _ _ (by rw [hlenC]; exact ha)]
          have := hid j hj
          have hzj := hz
          linarith
        · show getQ (st.net.set a (getQ st.net a + cc)) j =
            getQ c j - getQ st.discharge j + getQ (st.charge.set a cc) j
          rw [getQ_set_other _ _ _ _ hja, getQ_set_other _ _ _ _ hja]
          exact hid j hj
      · intro j hj
        by_cases hja : j = a
        · subst hja
          show 0 ≤ getQ (st.net.set j (getQ st.net j + cc)) j ∧
            getQ (st.net.set j (getQ st.net j + cc)) j ≤ thr
          rw [getQ_set_self _ _ _ (by rw [hlenN]; exact ha)]
          have := (hbnd j hj).1
          exact ⟨by linarith, hok⟩
        · show 0 ≤ getQ (st.net.set a (getQ st.net a + cc)) j ∧
            getQ (st.net.set a (getQ st.net a + cc)) j ≤ thr
          rw [getQ_set_other _ _ _ _ hja]
          exact hbnd j hj
    · rw [arbC_noop2 thr pow cap eff mx st a hgap hok]
      exact ⟨hsoc, hlenC, hlenD, hlenN, hid, hbnd⟩
  · rw [arbC_noop1 thr pow cap eff mx st a hgap]
    exact ⟨hsoc, hlenC, hlenD, hlenN, hid, hbnd⟩

theorem arbC_fold_inv2 (c : List ℚ) (thr pow cap eff mx : ℚ) (hpow : 0 ≤ pow)
    (heff : 0 < eff) :
    ∀ l : List Nat, l.Nodup → (∀ a ∈ l, a < 24) → ∀ st : BState,
      inv2 c thr cap mx st → (∀ j ∈ l, getQ st.charge j = 0) →
      inv2 c thr cap mx (l.foldl (arbC thr pow cap eff mx) st) := by
  intro l
  induction l with
  | nil => intro _ _ st hst _; exact hst
  | cons a as ih =>
    intro hnd hlt st hst hz
    rw [List.foldl_cons]
    have ha24 : a < 24 := hlt a (List.mem_cons_self a as)
    have hst2 := arbC_inv2_step c thr pow cap eff mx hpow heff st a ha24 hst
      (hz a (List.mem_cons_self a as))
    have hz2 : ∀ j ∈ as, getQ (arbC thr pow cap eff mx st a).charge j = 0 := by
      intro j hj
      have hja : j ≠ a := by
        intro heq
        subst heq
        exact (List.nodup_cons.mp hnd).1 hj
      rw [arbC_chg_frame thr pow cap eff mx st a j hja]
      exact hz j (List.mem_cons_of_mem a hj)
    exact ih (List.nodup_cons.mp hnd).2
      (fun b hb => hlt b (List.mem_cons_of_mem a hb)) _ hst2 hz2

theorem arbD_inv2_step (c : List ℚ) (thr pow cap eff mn mx : ℚ)
    (hpow : 0 ≤ pow) (heff : 0 < eff) (st : BState) (a : Nat) (ha : a < 24)
    (hst : inv2 c thr cap mx st) :
    inv2 c thr cap mx (arbD pow cap eff mn st a) := by
  obtain ⟨hsoc, hlenC, hlenD, hlenN, hid, hbnd⟩ := hst
  have hsoc2 := arbD_socb pow cap eff mn mx hpow heff st a hsoc
  by_cases hguard : mn * cap < st.soc
  · by_cases hok : 0 ≤ getQ st.net a - min pow (st.soc * eff)
    · rw [arbD_fire pow cap eff mn st a hguard hok] at hsoc2 ⊢
      set dd := min pow (st.soc * eff) with hdd
      have hdd0 : 0 ≤ dd := le_min hpow (mul_nonneg hsoc.1 heff.le)
      refine ⟨hsoc2, by simpa using hlenC, by simpa using hlenD,
        by simpa using hlenN, ?_, ?_⟩
      · intro j hj
        by_cases hja : j = a
        · subst hja
          show getQ (st.net.set j (getQ st.net j - dd)) j =
            getQ c j - getQ (st.discharge.set j (getQ st.discharge j + dd)) j +
              getQ st.charge j
          rw [getQ_set_self _ _ _ (by rw [hlenN]; exact ha),
            getQ_set_self _ _ _ (by rw [hlenD]; exact ha)]
          have := hid j hj
          linarith
        · show getQ (st.net.set a (getQ st.net a - dd)) j =
            getQ c j -
              getQ (st.discharge.set a (getQ st.discharge a + dd)) j +
              getQ st.charge j
          rw [getQ_set_other _ _ _ _ hja, getQ_set_other _ _ _ _ hja]
          exact hid j hj
      · intro j hj
        by_cases hja : j = a
        · subst hja
          show 0 ≤ getQ (st.net.set j (getQ st.net j - dd)) j ∧
            getQ (st.net.set j (getQ st.net j - dd)) j ≤ thr
          rw [getQ_set_self _ _ _ (by rw [hlenN]; exact ha)]
          have := (hbnd j hj).2
          exact ⟨hok, by linarith⟩
        · show 0 ≤ getQ (st.net.set a (getQ st.net a - dd)) j ∧
            getQ (st.net.set a (getQ st.net a - dd)) j ≤ thr
          rw [getQ_set_other _ _ _ _ hja]
          exact hbnd j hj
    · rw [arbD_noop2 pow cap eff mn st a hguard hok]
      exact ⟨hsoc, hlenC, hlenD, hlenN, hid, hbnd⟩
  · rw [arbD_noop1 pow cap eff mn st a hguard]
    exact ⟨hsoc, hlenC, hlenD, hlenN, hid, hbnd⟩

end BestBess

/-- C2 amended: the accounting identity netGridLoad[h] = consumption[h] -
discharge[h] + charge[h] holds for the schedule returned by optimize_bess in
best_bess.py whenever no hour of the consumption exceeds the grid threshold
(so that the clamping steps of the shaving passes never bind); when the
battery cannot fully shave an hour, the returned net grid load is clamped to
the threshold (or to zero) and the identity fails. -/
theorem c2_amended_identity (c p : List ℚ) (thr pow cap eff mn mx : ℚ)
    (hc : c.length = 24) (hcons : ∀ x ∈ c, 0 ≤ x) (hcthr : ∀ x ∈ c, x ≤ thr)
    (hpow : 0 ≤ pow) (heff : 0 < eff) (hmx : 0 ≤ mx * cap) :
    ∀ h, h < 24 →
      getQ (BestBess.optimize_bess c p thr pow cap eff mn mx).2.2 h =
        getQ c h -
          getQ (BestBess.optimize_bess c p thr pow cap eff mn mx).2.1 h +
          getQ (BestBess.optimize_bess c p thr pow cap eff mn mx).1 h := by
  intro h hh
  rw [BestBess.optimize_bess]
  by_cases hcap : cap = 0
  · rw [if_pos hcap]
    dsimp only
    rw [BestBess.zeros24, getQ_replicate_zero]
    ring
  · rw [if_neg hcap, BestBess.bbRun]
    dsimp only
    have h0 : BestBess.inv2 c thr cap mx (BestBess.initState c cap mx) := by
      refine ⟨⟨hmx, le_refl _⟩,
        by simp [BestBess.initState, BestBess.zeros24],
        by simp [BestBess.initState, BestBess.zeros24],
        by simpa [BestBess.initState] using hc, ?_, ?_⟩
      · intro j hj
        show getQ c j =
          getQ c j - getQ BestBess.zeros24 j + getQ BestBess.zeros24 j
        rw [BestBess.zeros24, getQ_replicate_zero]
        ring
      · intro j hj
        have hmem := mem_of_getQ c j (by rw [hc]; exact hj)
        exact ⟨hcons _ hmem, hcthr _ hmem⟩
    have h1 : (List.range 24).foldl (BestBess.ps1 thr pow eff)
        (BestBess.initState c cap mx) = BestBess.initState c cap mx :=
      BestBess.ps1_fold_noop c thr pow eff cap mx (List.range 24)
        (fun a ha => List.mem_range.mp ha) _ h0
    rw [h1]
    have hz0 : ∀ j ∈ lowestIdx p,
        getQ (BestBess.initState c cap mx).charge j = 0 := by
      intro j _
      show getQ BestBess.zeros24 j = 0
      rw [BestBess.zeros24]
      exact getQ_replicate_zero 24 j
    have h2 := BestBess.arbC_fold_inv2 c thr pow cap eff mx hpow heff
      (lowestIdx p) (lowestIdx_nodup p) (lowestIdx_lt p) _ h0 hz0
    have h3 := foldl_mem_preserve (P := BestBess.inv2 c thr cap mx)
      (BestBess.arbD pow cap eff mn) (highestIdx p)
      (fun st a hamem hst => BestBess.arbD_inv2_step c thr pow cap eff mn mx
        hpow heff st a (highestIdx_lt p a hamem) hst) _ h2
    have h4 := BestBess.ps3_fold_noop c thr pow cap eff mx (List.range 24)
      (fun a ha => List.mem_range.mp ha) _ h3
    rw [h4]
    exact h3.2.2.2.2.1 h hh

/-- C2 amended witness: the identity at a concrete input with every hourly
consumption below the threshold. -/
theorem c2_amended_identity_witness :
    ((List.replicate 24 (5:ℚ)).length = 24 ∧
        (∀ x ∈ List.replicate 24 (5:ℚ), (0:ℚ) ≤ x) ∧
        (∀ x ∈ List.replicate 24 (5:ℚ), x ≤ (10:ℚ)) ∧
        (0:ℚ) ≤ 2 ∧ (0:ℚ) < (9/10:ℚ) ∧ (0:ℚ) ≤ (9/10) * 40) ∧
      (∀ h, h < 24 →
        getQ (BestBess.optimize_bess (List.replicate 24 5)
            (List.replicate 24 1) 10 2 40 (9/10) (1/10) (9/10)).2.2 h =
          getQ (List.replicate 24 (5:ℚ)) h -
            getQ (BestBess.optimize_bess (List.replicate 24 5)
              (List.replicate 24 1) 10 2 40 (9/10) (1/10) (9/10)).2.1 h +
            getQ (BestBess.optimize_bess (List.replicate 24 5)
              (List.replicate 24 1) 10 2 40 (9/10) (1/10) (9/10)).1 h) :=
  ⟨⟨by simp,
      fun x hx => by rw [List.eq_of_mem_replicate hx]; norm_num,
      fun x hx => by rw [List.eq_of_mem_replicate hx]; norm_num,
      by norm_num, by norm_num, by norm_num⟩,
    c2_amended_identity (List.replicate 24 5) (List.replicate 24 1)
      10 2 40 (9/10) (1/10) (9/10) (by simp)
      (fun x hx => by rw [List.eq_of_mem_replicate hx]; norm_num)
      (fun x hx => by rw [List.eq_of_mem_replicate hx]; norm_num)
      (by norm_num) (by norm_num) (by norm_num)⟩

-- ## Net-load window machinery for C6

namespace BestBess

theorem ps1_net_frame (thr pow eff : ℚ) (st : BState) (h j : Nat)
    (hne : j ≠ h) :
    getQ (ps1 thr pow eff st h).net j = getQ st.net j := by
  simp only [ps1]
  split_ifs <;> simp [getQ_set_other _ _ _ _ hne]

theorem ps1_net_establish (thr pow eff : ℚ) (hthr : 0 ≤ thr) (st : BState)
    (h : Nat) (hlen : h < st.net.length) (hn0 : 0 ≤ getQ st.net h) :
    0 ≤ getQ (ps1 thr pow eff st h).net h ∧
      getQ (ps1 thr pow eff st h).net h ≤ thr := by
  simp only [ps1]
  by_cases hc : thr < getQ st.net h
  · simp only [hc, if_true]
    rw [getQ_set_self _ _ _ hlen]
    have hdle : min (getQ st.net h - thr) (min pow (st.soc * eff)) ≤
        getQ st.net h - thr := min_le_left _ _
    exact ⟨le_min (by linarith) hthr, min_le_right _ _⟩
  · simp only [hc, if_false]
    exact ⟨hn0, not_lt.mp hc⟩

theorem ps1_fold_netwin (thr pow eff : ℚ) (hthr : 0 ≤ thr) :
    ∀ n : Nat, n ≤ 24 → ∀ st : BState, st.net.length = 24 →
      (∀ j, j < 24 → 0 ≤ getQ st.net j) →
      (∀ j, j < 24 →
          0 ≤ getQ ((List.range n).foldl (ps1 thr pow eff) st).net j) ∧
        (∀ j, j < n →
          getQ ((List.range n).foldl (ps1 thr pow eff) st).net j ≤ thr) := by
  intro n
  induction n with
  | zero =>
    intro _ st _ h0
    exact ⟨h0, fun j hj => absurd hj (by omega)⟩
  | succ m ih =>
    intro hm st hlen h0
    rw [List.range_succ, List.foldl_append, List.foldl_cons, List.foldl_nil]
    have ihm := ih (by omega) st hlen h0
    have hlenM : ((List.range m).foldl (ps1 thr pow eff) st).net.length = 24 :=
      foldl_preserve (P := fun st2 : BState => st2.net.length = 24) _
        (fun st2 a ha => (ps1_net_len thr pow eff st2 a).trans ha) _ st hlen
    have hest := ps1_net_establish thr pow eff hthr _ m
      (by rw [hlenM]; omega) (ihm.1 m (by omega))
    constructor
    · intro j hj
      by_cases hjm : j = m
      · subst hjm
        exact hest.1
      · rw [ps1_net_frame thr pow eff _ m j hjm]
        exact ihm.1 j hj
    · intro j hj
      by_cases hjm : j = m
      · subst hjm
        exact hest.2
      · rw [ps1_net_frame thr pow eff _ m j hjm]
        exact ihm.2 j (by omega)

theorem arbC_netwin_step (thr pow cap eff mx : ℚ) (hpow : 0 ≤ pow)
    (heff : 0 < eff) (st : BState) (a : Nat) (ha : a < 24)
    (hlen : st.net.length = 24)
    (hwin : ∀ j, j < 24 → 0 ≤ getQ st.net j ∧ getQ st.net j ≤ thr) :
    (arbC thr pow cap eff mx st a).net.length = 24 ∧
      ∀ j, j < 24 → 0 ≤ getQ (arbC thr pow cap eff mx st a).net j ∧
        getQ (arbC thr pow cap eff mx st a).net j ≤ thr := by
  refine ⟨(arbC_net_len thr pow cap eff mx st a).trans hlen, ?_⟩
  by_cases hgap : st.soc < mx * cap
  · by_cases hok : getQ st.net a + min pow ((mx * cap - st.soc) / eff) ≤ thr
    · rw [arbC_fire thr pow cap eff mx st a hgap hok]
      intro j hj
      by_cases hja : j = a
      · subst hja
        show 0 ≤ getQ (st.net.set j
            (getQ st.net j + min pow ((mx * cap - st.soc) / eff))) j ∧
          getQ (st.net.set j
            (getQ st.net j + min pow ((mx * cap - st.soc) / eff))) j ≤ thr
        rw [getQ_set_self _ _ _ (by rw [hlen]; exact ha)]
        have hcc0 : 0 ≤ min pow ((mx * cap - st.soc) / eff) :=
          le_min hpow (div_nonneg (by linarith) heff.le)
        have hn0 := (hwin j hj).1
        exact ⟨by linarith, hok⟩
      · show 0 ≤ getQ (st.net.set a
            (getQ st.net a + min pow ((mx * cap - st.soc) / eff))) j ∧
          getQ (st.net.set a
            (getQ st.net a + min pow ((mx * cap - st.soc) / eff))) j ≤ thr
        rw [getQ_set_other _ _ _ _ hja]
        exact hwin j hj
    · rw [arbC_noop2 thr pow cap eff mx st a hgap hok]
      exact hwin
  · rw [arbC_noop1 thr pow cap eff mx st a hgap]
    exact hwin

theorem arbD_netwin_step (thr pow cap eff mn mx : ℚ) (hpow : 0 ≤ pow)
    (heff : 0 < eff) (st : BState) (a : Nat) (ha : a < 24)
    (hsoc : socb cap mx st) (hlen : st.net.length = 24)
    (hwin : ∀ j, j < 24 → 0 ≤ getQ st.net j ∧ getQ st.net j ≤ thr) :
    (arbD pow cap eff mn st a).net.length = 24 ∧
      ∀ j, j < 24 → 0 ≤ getQ (arbD pow cap eff mn st a).net j ∧
        getQ (arbD pow cap eff mn st a).net j ≤ thr := by
  refine ⟨(arbD_net_len pow cap eff mn st a).trans hlen, ?_⟩
  by_cases hguard : mn * cap < st.soc
  · by_cases hok : 0 ≤ getQ st.net a - min pow (st.soc * eff)
    · rw [arbD_fire pow cap eff mn st a hguard hok]
      intro j hj
      by_cases hja : j = a
      · subst hja
        show 0 ≤ getQ (st.net.set j
            (getQ st.net j - min pow (st.soc * eff))) j ∧
          getQ (st.net.set j (getQ st.net j - min pow (st.soc * eff))) j ≤ thr
        rw [getQ_set_self _ _ _ (by rw [hlen]; exact ha)]
        have hdd0 : 0 ≤ min pow (st.soc * eff) :=
          le_min hpow (mul_nonneg hsoc.1 heff.le)
        have hn1 := (hwin j hj).2
        exact ⟨hok, by linarith⟩
      · show 0 ≤ getQ (st.net.set a
            (getQ st.net a - min pow (st.soc * eff))) j ∧
          getQ (st.net.set a (getQ st.net a - min pow (st.soc * eff))) j ≤ thr
        rw [getQ_set_other _ _ _ _ hja]
        exact hwin j hj
    · rw [arbD_noop2 pow cap eff mn st a hguard hok]
      exact hwin
  · rw [arbD_noop1 pow cap eff mn st a hguard]
    exact hwin

theorem arbC_fold_netwin (thr pow cap eff mx : ℚ) (hpow : 0 ≤ pow)
    (heff : 0 < eff) (l : List Nat) (hl : ∀ a ∈ l, a < 24) (st : BState)
    (hst : st.net.length = 24 ∧
      ∀ j, j < 24 → 0 ≤ getQ st.net j ∧ getQ st.net j ≤ thr) :
    (l.foldl (arbC thr pow cap eff mx) st).net.length = 24 ∧
      ∀ j, j < 24 → 0 ≤ getQ (l.foldl (arbC thr pow cap eff mx) st).net j ∧
        getQ (l.foldl (arbC thr pow cap eff mx) st).net j ≤ thr := by
  refine foldl_mem_preserve (P := fun st2 : BState =>
    st2.net.length = 24 ∧
      ∀ j, j < 24 → 0 ≤ getQ st2.net j ∧ getQ st2.net j ≤ thr)
    _ l ?_ st hst
  intro st2 a ha ⟨hl2, hw2⟩
  exact arbC_netwin_step thr pow cap eff mx hpow heff st2 a (hl a ha) hl2 hw2

theorem arbD_fold_netwin (thr pow cap eff mn mx : ℚ) (hpow : 0 ≤ pow)
    (heff : 0 < eff) (l : List Nat) (hl : ∀ a ∈ l, a < 24) (st : BState)
    (hst : st.net.length = 24 ∧ socb cap mx st ∧
      (∀ j, j < 24 → 0 ≤ getQ st.net j ∧ getQ st.net j ≤ thr)) :
    (l.foldl (arbD pow cap eff mn) st).net.length = 24 ∧
      socb cap mx (l.foldl (arbD pow cap eff mn) st) ∧
      ∀ j, j < 24 → 0 ≤ getQ (l.foldl (arbD pow cap eff mn) st).net j ∧
        getQ (l.foldl (arbD pow cap eff mn) st).net j ≤ thr := by
  refine foldl_mem_preserve (P := fun st2 : BState =>
    st2.net.length = 24 ∧ socb cap mx st2 ∧
      ∀ j, j < 24 → 0 ≤ getQ st2.net j ∧ getQ st2.net j ≤ thr)
    _ l ?_ st hst
  intro st2 a ha ⟨hl2, hs2, hw2⟩
  have hstep := arbD_netwin_step thr pow cap eff mn mx hpow heff st2 a
    (hl a ha) hs2 hl2 hw2
  exact ⟨hstep.1, arbD_socb pow cap eff mn mx hpow heff st2 a hs2, hstep.2⟩

theorem ps3_fold_noop_window (thr pow cap eff mx : ℚ) :
    ∀ l : List Nat, (∀ a ∈ l, a < 24) → ∀ st : BState,
      (∀ j, j < 24 → 0 ≤ getQ st.net j ∧ getQ st.net j ≤ thr) →
      l.foldl (ps3 thr pow cap eff mx) st = st := by
  intro l
  induction l with
  | nil => intro _ st _; rfl
  | cons a as ih =>
    intro hlt st hwin
    have ha24 : a < 24 := hlt a (List.mem_cons_self a as)
    have hnoop : ps3 thr pow cap eff mx st a = st :=
      ps3_noop thr pow cap eff mx st a
        (not_lt.mpr (hwin a ha24).2) (not_lt.mpr (hwin a ha24).1)
    rw [List.foldl_cons, hnoop]
    exact ih (fun b hb => hlt b (List.mem_cons_of_mem a hb)) st hwin

end BestBess

/-- C6 amended: for every valid input (24-entry non-negative consumption,
non-negative threshold, non-negative power limit, positive efficiency), every
hour of the schedule returned by optimize_bess in best_bess.py satisfies
charge[h] >= 0, discharge[h] >= 0 and charge[h] <= powerLimitKW as claimed,
but the discharge bound must be weakened to discharge[h] <= 2 powerLimitKW:
the arbitrage pass adds its discharge on top of the peak-shaving pass at the
same hour.  The enforcement pass never fires on valid inputs, because the
first pass clamps the net load into [0, threshold] and the arbitrage loops
preserve that window. -/
theorem c6_amended_schedule_bounds (c p : List ℚ) (thr pow cap eff mn mx : ℚ)
    (hc : c.length = 24) (hcons : ∀ x ∈ c, 0 ≤ x) (hthr : 0 ≤ thr)
    (hpow : 0 ≤ pow) (heff : 0 < eff) (hmx : 0 ≤ mx * cap) :
    ∀ h : Nat,
      (0 ≤ getQ (BestBess.optimize_bess c p thr pow cap eff mn mx).1 h ∧
        getQ (BestBess.optimize_bess c p thr pow cap eff mn mx).1 h ≤ pow) ∧
      (0 ≤ getQ (BestBess.optimize_bess c p thr pow cap eff mn mx).2.1 h ∧
        getQ (BestBess.optimize_bess c p thr pow cap eff mn mx).2.1 h ≤
          2 * pow) := by
  intro h
  rw [BestBess.optimize_bess]
  by_cases hcap : cap = 0
  · rw [if_pos hcap]
    dsimp only
    rw [BestBess.zeros24, getQ_replicate_zero]
    exact ⟨⟨le_refl 0, hpow⟩, ⟨le_refl 0, by linarith⟩⟩
  · rw [if_neg hcap, BestBess.bbRun]
    dsimp only
    have h0soc : BestBess.socb cap mx (BestBess.initState c cap mx) :=
      ⟨hmx, le_refl _⟩
    have h0len : (BestBess.initState c cap mx).discharge.length = 24 := by
      simp [BestBess.initState, BestBess.zeros24]
    have h0chg : (BestBess.initState c cap mx).charge = BestBess.zeros24 := rfl
    have h0dis : ∀ j, 0 ≤ getQ (BestBess.initState c cap mx).discharge j ∧
        getQ (BestBess.initState c cap mx).discharge j ≤ pow := by
      intro j
      have : getQ (BestBess.initState c cap mx).discharge j = 0 := by
        simp only [BestBess.initState, BestBess.zeros24]
        exact getQ_replicate_zero 24 j
      rw [this]
      exact ⟨le_refl 0, hpow⟩
    have h0netlen : (BestBess.initState c cap mx).net.length = 24 := by
      simpa [BestBess.initState] using hc
    have h0netpos : ∀ j, j < 24 →
        0 ≤ getQ (BestBess.initState c cap mx).net j := by
      intro j hj
      exact hcons _ (mem_of_getQ c j (by rw [hc]; exact hj))
    have s1 := BestBess.ps1_fold_c6 thr pow eff cap mx hpow heff
      (List.range 24) (fun a ha => List.mem_range.mp ha)
      (BestBess.initState c cap mx) ⟨h0soc, h0len, h0chg, h0dis⟩
    have s1win := BestBess.ps1_fold_netwin thr pow eff hthr 24 (le_refl 24)
      (BestBess.initState c cap mx) h0netlen h0netpos
    have s1netlen : ((List.range 24).foldl (BestBess.ps1 thr pow eff)
        (BestBess.initState c cap mx)).net.length = 24 :=
      foldl_preserve (P := fun st2 : BestBess.BState => st2.net.length = 24) _
        (fun st2 a ha => (BestBess.ps1_net_len thr pow eff st2 a).trans ha)
        _ _ h0netlen
    have s1chgB : ∀ j, 0 ≤ getQ ((List.range 24).foldl
        (BestBess.ps1 thr pow eff) (BestBess.initState c cap mx)).charge j ∧
        getQ ((List.range 24).foldl (BestBess.ps1 thr pow eff)
          (BestBess.initState c cap mx)).charge j ≤ pow := by
      intro j
      rw [s1.2.2.1, BestBess.zeros24, getQ_replicate_zero]
      exact ⟨le_refl 0, hpow⟩
    have s1chgLen : ((List.range 24).foldl (BestBess.ps1 thr pow eff)
        (BestBess.initState c cap mx)).charge.length = 24 := by
      rw [s1.2.2.1, BestBess.zeros24]
      simp
    have s2 := BestBess.arbC_fold_c6 thr pow cap eff mx hpow heff
      (lowestIdx p) (lowestIdx_lt p) _
      ⟨s1.1, s1.2.1, s1chgLen, s1chgB, s1.2.2.2⟩
    have s2win := BestBess.arbC_fold_netwin thr pow cap eff mx hpow heff
      (lowestIdx p) (lowestIdx_lt p) _
      ⟨s1netlen, fun j hj => ⟨s1win.1 j hj, s1win.2 j hj⟩⟩
    have s3 := BestBess.arbD_fold_c6 pow cap eff mn mx hpow heff
      (highestIdx p) (highestIdx_nodup p) (highestIdx_lt p) _
      s2.1 s2.2.1 s2.2.2.1 s2.2.2.2.1
      (fun j => ⟨(s2.2.2.2.2 j).1, by linarith [(s2.2.2.2.2 j).2]⟩)
      (fun j _ => (s2.2.2.2.2 j).2)
    have s3win := BestBess.arbD_fold_netwin thr pow cap eff mn mx hpow heff
      (highestIdx p) (highestIdx_lt p) _ ⟨s2win.1, s2.1, s2win.2⟩
    have hnoop := BestBess.ps3_fold_noop_window thr pow cap eff mx
      (List.range 24) (fun a ha => List.mem_range.mp ha) _ s3win.2.2
    rw [hnoop]
    exact ⟨s3.2.2.2.1 h, s3.2.2.2.2 h⟩

/-- C6 amended witness: the schedule bound theorem applied at a concrete
valid input. -/
theorem c6_amended_schedule_bounds_witness :
    ((List.replicate 24 (7:ℚ)).length = 24 ∧
        (∀ x ∈ List.replicate 24 (7:ℚ), (0:ℚ) ≤ x) ∧
        (0:ℚ) ≤ 5 ∧ (0:ℚ) ≤ 2 ∧ (0:ℚ) < (9/10:ℚ) ∧ (0:ℚ) ≤ (9/10) * 40) ∧
      (∀ h : Nat,
        (0 ≤ getQ (BestBess.optimize_bess (List.replicate 24 7)
            (List.replicate 24 1) 5 2 40 (9/10) (1/10) (9/10)).1 h ∧
          getQ (BestBess.optimize_bess (List.replicate 24 7)
            (List.replicate 24 1) 5 2 40 (9/10) (1/10) (9/10)).1 h ≤ 2) ∧
        (0 ≤ getQ (BestBess.optimize_bess (List.replicate 24 7)
            (List.replicate 24 1) 5 2 40 (9/10) (1/10) (9/10)).2.1 h ∧
          getQ (BestBess.optimize_bess (List.replicate 24 7)
            (List.replicate 24 1) 5 2 40 (9/10) (1/10) (9/10)).2.1 h ≤ 2 * 2)) :=
  ⟨⟨by simp, fun x hx => by rw [List.eq_of_mem_replicate hx]; norm_num,
      by norm_num, by norm_num, by norm_num, by norm_num⟩,
    c6_amended_schedule_bounds (List.replicate 24 7) (List.replicate 24 1)
      5 2 40 (9/10) (1/10) (9/10) (by simp)
      (fun x hx => by rw [List.eq_of_mem_replicate hx]; norm_num)
      (by norm_num) (by norm_num) (by norm_num) (by norm_num)⟩
